import Mathlib

/-!
Verification of the airulesync path-relocation engine and sync decision logic.

The Go sources are embedded shallowly:
* `internal/pathadjust/pathadjust.go` — `adjustPath`, `adjustLine`, `processContent`
  together with models of the Go standard-library functions they call
  (`path/filepath.Clean`, `Join`, `Rel`, `Abs`, `Dir`, `Match` with Unix
  separator semantics, `bufio.Scanner` with `ScanLines`).
* `internal/sync/sync.go` — `syncFile` and the result/report types, over an
  explicit filesystem state.

Strings are modelled as their character lists (`String.data`); Go operates on
bytes, so the model is faithful for ASCII content, which is all the path
machinery distinguishes.  The process working directory consumed by
`filepath.Abs` is passed as an explicit `cwd` argument.
-/

/-- Character-list representation of a Go string. -/
abbrev Chars := List Char

/-- `strings.HasPrefix` on character lists. -/
def startsWithL : Chars → Chars → Bool
  | [], _ => true
  | _ :: _, [] => false
  | p :: ps, c :: cs => p = c && startsWithL ps cs

/-! ### Model of `path/filepath` (Unix rules) -/

/-- A path is rooted (absolute) iff it begins with the separator. -/
def isRooted : Chars → Bool
  | '/' :: _ => true
  | _ => false

/-- Split a character list on `'/'`, keeping empty segments
(`"a//b" ↦ ["a", "", "b"]`, `"" ↦ [""]`). -/
def splitSlash : Chars → List Chars
  | [] => [[]]
  | c :: cs =>
    if c = '/' then [] :: splitSlash cs
    else
      match splitSlash cs with
      | [] => [[c]]
      | t :: ts => (c :: t) :: ts

/-- Join components with `'/'` separators. -/
def joinSlash : List Chars → Chars
  | [] => []
  | c :: cs =>
    match cs with
    | [] => c
    | _ :: _ => c ++ '/' :: joinSlash cs

/-- Core of `filepath.Clean`: process components left to right keeping a stack
(the output in reverse).  Empty and `"."` components are dropped; `".."` pops a
normal component, is dropped at the root, and accumulates otherwise. -/
def cleanStack (rooted : Bool) : List Chars → List Chars → List Chars
  | stk, [] => stk
  | stk, c :: cs =>
    if c = [] ∨ c = ['.'] then cleanStack rooted stk cs
    else if c = ['.', '.'] then
      match stk with
      | [] => if rooted then cleanStack rooted [] cs else cleanStack rooted [['.', '.']] cs
      | d :: ds =>
        if d = ['.', '.'] then cleanStack rooted (['.', '.'] :: d :: ds) cs
        else cleanStack rooted ds cs
    else cleanStack rooted (c :: stk) cs

/-- Cleaned component list of a path. -/
def cleanComps (rooted : Bool) (cs : List Chars) : List Chars :=
  (cleanStack rooted [] cs).reverse

/-- Render a rooted flag and component list back into path text, with the Go
conventions `("/", [] ) ↦ "/"` and `(rel, []) ↦ "."`. -/
def renderPath (rooted : Bool) (cs : List Chars) : Chars :=
  if rooted then '/' :: joinSlash cs
  else if cs = [] then ['.'] else joinSlash cs

/-- `filepath.Clean` on character lists. -/
def cleanL (l : Chars) : Chars :=
  renderPath (isRooted l) (cleanComps (isRooted l) (splitSlash l))

/-- `filepath.Join` for two elements: empty elements are skipped and the
joined text is cleaned. -/
def joinL (a b : Chars) : Chars :=
  if a = [] then (if b = [] then [] else cleanL b)
  else if b = [] then cleanL (a ++ ['/'])
  else cleanL (a ++ '/' :: b)

/-- Nonempty components of a cleaned path. -/
def compsOf (l : Chars) : List Chars :=
  (splitSlash l).filter (· ≠ [])

/-- Strip the longest common prefix of two component lists, returning both
remainders (the element-wise scan of `filepath.Rel`). -/
def dropCommon : List Chars → List Chars → List Chars × List Chars
  | a :: as', b :: bs =>
    if a = b then dropCommon as' bs else (a :: as', b :: bs)
  | as', bs => (as', bs)

/-- `filepath.Rel base targ`: `none` models `Rel` returning an error. -/
def relL (base targ : Chars) : Option Chars :=
  let b := cleanL base
  let t := cleanL targ
  if b = t then some ['.']
  else if isRooted b ≠ isRooted t then none
  else
    let bcs := if b = ['.'] then [] else compsOf b
    let tcs := compsOf t
    let pr := dropCommon bcs tcs
    if pr.1.head? = some ['.', '.'] then none
    else some (joinSlash (List.replicate pr.1.length ['.', '.'] ++ pr.2))

/-- `filepath.Abs` with the working directory passed explicitly. -/
def absL (cwd l : Chars) : Chars :=
  if isRooted l then cleanL l else joinL cwd l

/-- `filepath.Dir`: everything up to and including the final separator,
cleaned. -/
def dirL (l : Chars) : Chars :=
  cleanL ((l.reverse.dropWhile (· ≠ '/')).reverse)

/-- The final prefix fixup of `adjustPath`: ensure the result begins with
`./` or `../`. -/
def canonRel (r : Chars) : Chars :=
  if startsWithL ['.', '/'] r ∨ startsWithL ['.', '.', '/'] r then r
  else '.' :: '/' :: r

/-- `PathAdjuster.adjustPath` (pathadjust.go): resolve both directories to
absolute form, resolve the path against the source directory, recompute it
relative to the target directory, and canonicalize the `./`-prefix. -/
def adjustPathL (path sourceDir targetDir cwd : Chars) : Option Chars :=
  let absSourceDir := absL cwd sourceDir
  let absTargetDir := absL cwd targetDir
  let originalAbsPath := joinL absSourceDir path
  match relL absTargetDir originalAbsPath with
  | none => none
  | some r => some (canonRel r)

/-- String-level `adjustPath`. -/
def adjustPath (path sourceDir targetDir cwd : String) : Option String :=
  (adjustPathL path.data sourceDir.data targetDir.data cwd.data).map String.mk

/-! ### Lemmas about splitting and joining -/

/-- A path component in fully cleaned normal position: nonempty, not `"."`,
not `".."`, and free of separators. -/
def NormalComp (c : Chars) : Prop :=
  c ≠ [] ∧ c ≠ ['.'] ∧ c ≠ ['.', '.'] ∧ '/' ∉ c

instance (c : Chars) : Decidable (NormalComp c) := by
  unfold NormalComp; infer_instance

/-- Characterization of the absolute, cleaned directory paths produced by
`absL` under a rooted working directory. -/
def GoodAbs (D : Chars) : Prop :=
  ∃ d, (∀ c ∈ d, NormalComp c) ∧ D = renderPath true d

/-- Cleaned components of the relative path `p`. -/
def relComps (p : Chars) : List Chars :=
  cleanComps false (splitSlash p)


/-! ### Model of `path/filepath.Match` (Unix rules)

Naive recursive glob semantics: `*` and `?` do not cross the separator, a
character class matches via ranges, `\` escapes.  Malformed patterns yield
`false`, which is how the caller (`syncFile`) treats `Match` errors. -/

/-- One escaped item of a character class (`getEsc`): rejects `]`, `-`, a
trailing `\`, and an exhausted pattern. -/
def parseClassEsc : Chars → Option (Char × Chars)
  | [] => none
  | c :: rest =>
    if c = ']' ∨ c = '-' then none
    else if c = '\\' then
      match rest with
      | [] => none
      | e :: rest2 => some (e, rest2)
    else some (c, rest)

/-- Parse the ranges of a character class up to the closing `]` (at least one
range required). -/
def parseRanges : Nat → Chars → List (Char × Char) → Option (List (Char × Char) × Chars)
  | 0, _, _ => none
  | fuel + 1, p, acc =>
    match p with
    | ']' :: rest =>
      if acc ≠ [] then some (acc.reverse, rest)
      else none
    | _ =>
      match parseClassEsc p with
      | none => none
      | some (lo, rest) =>
        match rest with
        | '-' :: rest2 =>
          match parseClassEsc rest2 with
          | none => none
          | some (hi, rest3) => parseRanges fuel rest3 ((lo, hi) :: acc)
        | _ => parseRanges fuel rest ((lo, lo) :: acc)

/-- Fueled core of `filepath.Match`. -/
def matchGlobFuel : Nat → Chars → Chars → Bool
  | 0, _, _ => false
  | fuel + 1, pattern, name =>
    match pattern with
    | [] => name = []
    | '*' :: ps =>
      matchGlobFuel fuel ps name ||
        (match name with
         | [] => false
         | c :: name2 => ¬ c = '/' && matchGlobFuel fuel ('*' :: ps) name2)
    | '?' :: ps =>
      (match name with
       | [] => false
       | c :: name2 => ¬ c = '/' && matchGlobFuel fuel ps name2)
    | '[' :: ps =>
      let neg := match ps with
        | '^' :: _ => true
        | _ => false
      let body := match ps with
        | '^' :: r => r
        | _ => ps
      (match parseRanges (body.length + 1) body [] with
       | none => false
       | some (ranges, rest) =>
         match name with
         | [] => false
         | c :: name2 =>
           (ranges.any (fun r => r.1 ≤ c ∧ c ≤ r.2) ≠ neg) && matchGlobFuel fuel rest name2)
    | '\\' :: ps =>
      (match ps with
       | [] => false
       | e :: ps2 =>
         match name with
         | [] => false
         | c :: name2 => c = e && matchGlobFuel fuel ps2 name2)
    | k :: ps =>
      match name with
      | [] => false
      | c :: name2 => c = k && matchGlobFuel fuel ps name2

/-- `filepath.Match pattern name` (error folded to `false`). -/
def matchGlob (pattern name : String) : Bool :=
  matchGlobFuel (pattern.data.length + name.data.length + 1) pattern.data name.data

/-! ### Model of the `adjustLine` regular expressions

Each of the six Go regular expressions is embedded as a deterministic
scanner with RE2 leftmost-first semantics, producing byte-index spans for
the whole match and for capture group 1 (the span `match[2:4]` that
`adjustLine` extracts — for the import/require pattern this is the keyword,
exactly as in the source). -/

/-- Whole-match and first-capture-group spans, as half-open index intervals. -/
structure RegexMatch where
  ms : Nat
  me : Nat
  cs : Nat
  ce : Nat
  deriving DecidableEq, Repr

/-- Quote character (`'` or `"`). -/
def isQuoteC (c : Char) : Bool := c = '"' ∨ c.toNat = 39

/-- RE2 `\s`: space, tab, newline, form feed, carriage return. -/
def isSpaceGo (c : Char) : Bool :=
  c = ' ' ∨ c = '\t' ∨ c = '\n' ∨ c = '\x0c' ∨ c = '\r'

/-- The literal `w` occurs in `l` at index `i`. -/
def litAt (l : Chars) (i : Nat) (w : Chars) : Bool :=
  (l.drop i).take w.length = w

/-- First index `≥ i` whose character fails `p` (or `l.length`). -/
def scanWhile (p : Char → Bool) (l : Chars) (i : Nat) : Nat :=
  i + ((l.drop i).takeWhile p).length

/-- Substring of `l` from `a` (inclusive) to `b` (exclusive). -/
def sliceL (l : Chars) (a b : Nat) : Chars :=
  (l.drop a).take (b - a)

/-- Match `['"]([./][^'"]+)['"]` at index `j`; returns the capture span. -/
def quotedRelAt (l : Chars) (j : Nat) : Option (Nat × Nat) :=
  match l.get? j with
  | none => none
  | some c0 =>
    if isQuoteC c0 then
      match l.get? (j + 1) with
      | none => none
      | some c1 =>
        if c1 = '.' ∨ c1 = '/' then
          let m := scanWhile (fun c => ¬ isQuoteC c) l (j + 2)
          match l.get? m with
          | none => none
          | some cm => if isQuoteC cm ∧ j + 3 ≤ m then some (j + 1, m) else none
        else none
    else none

/-- One keyword alternative of the import/require pattern
`(import|from|require)\s+['"]([./][^'"]+)['"]`; the recorded capture span is
group 1, i.e. the keyword itself. -/
def matchKeywordQuoted (l : Chars) (i : Nat) (kw : Chars) : Option RegexMatch :=
  if litAt l i kw then
    let j := scanWhile isSpaceGo l (i + kw.length)
    if i + kw.length < j then
      match quotedRelAt l j with
      | some (_, m) => some ⟨i, m + 1, i, i + kw.length⟩
      | none => none
    else none
  else none

/-- First alternative (in order) that yields a full match. -/
def firstSome (xs : List α) (f : α → Option β) : Option β :=
  xs.foldr (fun x acc => (f x).orElse (fun _ => acc)) none

def matchImpReqAt (l : Chars) (i : Nat) : Option RegexMatch :=
  firstSome ["import".data, "from".data, "require".data] (matchKeywordQuoted l i)

/-- `["'](?:path|file|src|source|location|include)["']\s*:\s*["']([./][^'"]+)["']`. -/
def matchKVAt (l : Chars) (i : Nat) : Option RegexMatch :=
  match l.get? i with
  | none => none
  | some c0 =>
    if isQuoteC c0 then
      firstSome ["path".data, "file".data, "src".data, "source".data,
        "location".data, "include".data] (fun kw =>
        if litAt l (i + 1) kw then
          match l.get? (i + 1 + kw.length) with
          | none => none
          | some c1 =>
            if isQuoteC c1 then
              let j2 := scanWhile isSpaceGo l (i + 2 + kw.length)
              match l.get? j2 with
              | none => none
              | some cc =>
                if cc = ':' then
                  let j3 := scanWhile isSpaceGo l (j2 + 1)
                  match quotedRelAt l j3 with
                  | some (cs1, ce1) => some ⟨i, ce1 + 1, cs1, ce1⟩
                  | none => none
                else none
            else none
        else none)
    else none

/-- `key=["']([./][^'"]+)["']` for a fixed keyword set. -/
def matchAttrAt (kws : List Chars) (l : Chars) (i : Nat) : Option RegexMatch :=
  firstSome kws (fun kw =>
    if litAt l i kw ∧ l.get? (i + kw.length) = some '=' then
      match quotedRelAt l (i + kw.length + 1) with
      | some (cs1, ce1) => some ⟨i, ce1 + 1, cs1, ce1⟩
      | none => none
    else none)

/-- Check `\]\(([./][^)]+)\)` at candidate index `j` (the position of `]`). -/
def mdTailAt (l : Chars) (j : Nat) : Option (Nat × Nat × Nat) :=
  if l.get? j = some ']' ∧ l.get? (j + 1) = some '(' then
    match l.get? (j + 2) with
    | none => none
    | some c2 =>
      if c2 = '.' ∨ c2 = '/' then
        let m := scanWhile (fun c => ¬ c = ')') l (j + 3)
        match l.get? m with
        | none => none
        | some cm => if cm = ')' ∧ j + 4 ≤ m then some (m + 1, j + 2, m) else none
      else none
  else none

/-- Lazy scan of `.*?` for the markdown pattern: the first candidate `](`
whose tail matches, never crossing a newline. -/
def mdScan (l : Chars) : Nat → Nat → Option (Nat × Nat × Nat)
  | 0, _ => none
  | fuel + 1, j =>
    match l.get? j with
    | none => none
    | some c =>
      if c = '\n' then none
      else
        match mdTailAt l j with
        | some r => some r
        | none => mdScan l fuel (j + 1)

/-- `\[.*?\]\(([./][^)]+)\)`. -/
def matchMdAt (l : Chars) (i : Nat) : Option RegexMatch :=
  if l.get? i = some '[' then
    match mdScan l (l.length + 1) (i + 1) with
    | some (me1, cs1, ce1) => some ⟨i, me1, cs1, ce1⟩
    | none => none
  else none

/-- The fixed extension set of the generic quoted-path pattern. -/
def extList : List Chars :=
  ["md", "txt", "json", "yaml", "yml", "js", "ts", "go", "py", "java", "c",
    "cpp", "h", "hpp", "css", "html", "xml"].map String.data

/-- `["']([./][^'"]+\.(md|…|xml))["']`. -/
def matchExtAt (l : Chars) (i : Nat) : Option RegexMatch :=
  match l.get? i with
  | none => none
  | some c0 =>
    if isQuoteC c0 then
      match l.get? (i + 1) with
      | none => none
      | some c1 =>
        if c1 = '.' ∨ c1 = '/' then
          let m := scanWhile (fun c => ¬ isQuoteC c) l (i + 2)
          match l.get? m with
          | none => none
          | some cm =>
            if isQuoteC cm ∧
                (List.range m).any (fun k =>
                  i + 3 ≤ k ∧ l.get? k = some '.' ∧ sliceL l (k + 1) m ∈ extList) then
              some ⟨i, m + 1, i + 1, m⟩
            else none
        else none
    else none

/-- The six pattern categories of `adjustLine`, in source order. -/
inductive PatternCat where
  | impReq | kvRef | attrRef | mdLink | hrefSrc | quotedExt
  deriving DecidableEq, Repr

/-- Single-position matcher of each category. -/
def patternMatchAt : PatternCat → Chars → Nat → Option RegexMatch
  | .impReq => matchImpReqAt
  | .kvRef => matchKVAt
  | .attrRef => matchAttrAt
      ["file".data, "path".data, "source".data, "target".data, "output".data, "input".data]
  | .mdLink => matchMdAt
  | .hrefSrc => matchAttrAt ["href".data, "src".data]
  | .quotedExt => matchExtAt

/-- Leftmost match at or after index `i`. -/
def findFirstFrom (cat : PatternCat) (l : Chars) : Nat → Nat → Option RegexMatch
  | 0, _ => none
  | fuel + 1, i =>
    match patternMatchAt cat l i with
    | some r => some r
    | none => if i < l.length then findFirstFrom cat l fuel (i + 1) else none

/-- All successive leftmost non-overlapping matches
(`FindAllStringSubmatchIndex`). -/
def findAllAux (cat : PatternCat) (l : Chars) : Nat → Nat → List RegexMatch
  | 0, _ => []
  | fuel + 1, i =>
    match findFirstFrom cat l (l.length + 1 - i) i with
    | none => []
    | some r => r :: findAllAux cat l fuel (max r.me (i + 1))

def patternFind (cat : PatternCat) (l : Chars) : List RegexMatch :=
  findAllAux cat l (l.length + 1) 0

/-- The fixed order in which `adjustLine` applies the pattern categories. -/
def patternOrder : List PatternCat :=
  [.impReq, .kvRef, .attrRef, .mdLink, .hrefSrc, .quotedExt]

/-- `AdjustmentResult` (pathadjust.go). -/
structure AdjustmentResult where
  OriginalPath : String
  AdjustedPath : String
  LineNumber : Nat
  deriving DecidableEq, Repr

/-- Process one regex match: skip non-relative captures, skip failed or
no-op adjustments, otherwise splice the adjusted path into the line and
record the adjustment. -/
def processMatch (sourceDir targetDir cwd : Chars) (lineNum : Nat)
    (st : Chars × List AdjustmentResult) (m : RegexMatch) :
    Chars × List AdjustmentResult :=
  let line := st.1
  let originalPath := sliceL line m.cs m.ce
  if ¬ (startsWithL ['.', '/'] originalPath ∨ startsWithL ['.', '.', '/'] originalPath) then
    st
  else
    match adjustPathL originalPath sourceDir targetDir cwd with
    | none => st
    | some adjustedPath =>
      if adjustedPath = originalPath then st
      else
        (line.take m.cs ++ adjustedPath ++ line.drop m.ce,
          st.2 ++ [⟨String.mk originalPath, String.mk adjustedPath, lineNum⟩])

/-- Apply one category: find all matches in the current line and process them
in reverse (right-to-left) order. -/
def applyPattern (sourceDir targetDir cwd : Chars) (lineNum : Nat)
    (st : Chars × List AdjustmentResult) (cat : PatternCat) :
    Chars × List AdjustmentResult :=
  ((patternFind cat st.1).reverse).foldl (processMatch sourceDir targetDir cwd lineNum) st

/-- `adjustLine` (pathadjust.go): apply the six categories in order. -/
def adjustLineL (line : Chars) (lineNum : Nat) (sourceDir targetDir cwd : Chars) :
    Chars × List AdjustmentResult :=
  patternOrder.foldl (applyPattern sourceDir targetDir cwd lineNum) (line, [])

/-- String-level `adjustLine`. -/
def adjustLine (line : String) (lineNum : Nat) (sourceDir targetDir cwd : String) :
    String × List AdjustmentResult :=
  let r := adjustLineL line.data lineNum sourceDir.data targetDir.data cwd.data
  (String.mk r.1, r.2)

/-! ### Model of `processContent` and `bufio.Scanner`/`ScanLines` -/

/-- `bufio.MaxScanTokenSize`. -/
def maxScanTokenSize : Nat := 65536

/-- Strip one trailing carriage return (`dropCR`). -/
def dropCR (l : Chars) : Chars :=
  if l.getLast? = some '\r' then l.dropLast else l

/-- Split off the first line: text before the first newline, plus the
remainder after it when a newline exists. -/
def breakNL : Chars → Chars × Option Chars
  | [] => ([], none)
  | c :: cs =>
    if c = '\n' then ([], some cs)
    else
      let r := breakNL cs
      (c :: r.1, r.2)

theorem breakNL_rest_length (l : Chars) :
    ∀ seg r, breakNL l = (seg, some r) → r.length < l.length := by
  induction l with
  | nil => intro seg r h; simp [breakNL] at h
  | cons c cs ih =>
    intro seg r h
    by_cases hc : c = '\n'
    · simp only [breakNL, if_pos hc, Prod.mk.injEq] at h
      have : cs = r := Option.some_inj.mp h.2
      subst this
      simp
    · simp only [breakNL, if_neg hc, Prod.mk.injEq] at h
      have h2 : (breakNL cs).2 = some r := h.2
      have := ih (breakNL cs).1 r (Prod.ext rfl h2)
      simp only [List.length_cons]
      omega

/-- Line tokenization of `bufio.Scanner` with `ScanLines`: produce the lines
in order, failing (like `ErrTooLong`) as soon as a line does not fit in the
`maxScanTokenSize` buffer. -/
def scanGo (l : Chars) : Option (List Chars) :=
  match hbr : (breakNL l).2 with
  | some rest =>
    if maxScanTokenSize ≤ (breakNL l).1.length then none
    else (scanGo rest).map (fun ts => dropCR (breakNL l).1 :: ts)
  | none =>
    if (breakNL l).1 = [] then some []
    else if maxScanTokenSize ≤ (breakNL l).1.length then none
    else some [dropCR (breakNL l).1]
termination_by l.length
decreasing_by exact breakNL_rest_length l (breakNL l).1 rest (Prod.ext rfl hbr)

/-- Plain split of content on newlines (every segment, including a trailing
empty one). -/
def splitNL : Chars → List Chars
  | [] => [[]]
  | c :: cs =>
    if c = '\n' then [] :: splitNL cs
    else
      match splitNL cs with
      | [] => [[c]]
      | t :: ts => (c :: t) :: ts

/-- The token sequence `ScanLines` produces when no line overruns the
buffer: all newline-separated segments except a trailing empty one, each
with one trailing carriage return stripped. -/
def linesOf (l : Chars) : List Chars :=
  (if (splitNL l).getLast? = some [] then (splitNL l).dropLast else splitNL l).map dropCR

/-- The per-line loop of `processContent`: adjust each line and emit it
followed by a single newline, accumulating adjustments with 1-based line
numbers. -/
def processLines (sourceDir targetDir cwd : Chars) :
    Nat → List Chars → List AdjustmentResult × Chars
  | _, [] => ([], [])
  | n, line :: rest =>
    let r := adjustLineL line n sourceDir targetDir cwd
    let tail := processLines sourceDir targetDir cwd (n + 1) rest
    (r.2 ++ tail.1, r.1 ++ '\n' :: tail.2)

/-- `processContent` (pathadjust.go): scan the content line by line, adjust
each line, and reassemble; a scanner error aborts with no output. -/
def processContentL (content sourceDir targetDir cwd : Chars) :
    Option (List AdjustmentResult × Chars) :=
  match scanGo content with
  | none => none
  | some lines => some (processLines sourceDir targetDir cwd 1 lines)

/-- String-level `processContent`. -/
def processContent (content sourceDir targetDir cwd : String) :
    Option (List AdjustmentResult × String) :=
  (processContentL content.data sourceDir.data targetDir.data cwd.data).map
    (fun r => (r.1, String.mk r.2))

/-! ### Model of `syncFile` (sync.go) over an explicit filesystem -/

/-- Filesystem state: an association list of file contents (later entries
shadow earlier ones) and the set of directories created.  `read` models
`os.ReadFile`/`os.Open`, `fileExists` models a successful `os.Stat` on a
file, `mkdirAll` models `os.MkdirAll` (which cannot fail in the model), and
`write` models `os.WriteFile`/`os.Create`+`io.Copy`. -/
structure FS where
  files : List (String × String)
  dirs : List String
  deriving DecidableEq, Repr

def FS.read (fs : FS) (p : String) : Option String :=
  (fs.files.find? (fun e => e.1 == p)).map (fun e => e.2)

def FS.fileExists (fs : FS) (p : String) : Bool :=
  (fs.read p).isSome

def FS.write (fs : FS) (p c : String) : FS :=
  ⟨(p, c) :: fs.files, fs.dirs⟩

def FS.mkdirAll (fs : FS) (p : String) : FS :=
  ⟨fs.files, p :: fs.dirs⟩

/-- `filepath.Join` on strings. -/
def joinPath (a b : String) : String :=
  String.mk (joinL a.data b.data)

/-- `filepath.Dir` on strings. -/
def dirPath (p : String) : String :=
  String.mk (dirL p.data)

/-- `PathAdjuster.AdjustPaths` (pathadjust.go): read the source file, adjust
its content, create the target directory, write the target file. -/
def AdjustPaths (fs : FS) (sourceFile targetFile sourceDir targetDir cwd : String) :
    Except String (List AdjustmentResult × FS) :=
  match fs.read sourceFile with
  | none => .error "failed to read source file"
  | some content =>
    match processContent content sourceDir targetDir cwd with
    | none => .error "failed to process content"
    | some (adjustments, adjustedContent) =>
      let fs1 := fs.mkdirAll (dirPath targetFile)
      .ok (adjustments, fs1.write targetFile adjustedContent)

/-- `PathAdjuster.CopyFile` (pathadjust.go). -/
def CopyFile (fs : FS) (sourceFile targetFile : String) : Except String FS :=
  match fs.read sourceFile with
  | none => .error "failed to open source file"
  | some content =>
    let fs1 := fs.mkdirAll (dirPath targetFile)
    .ok (fs1.write targetFile content)

/-- `scanner.FileInfo`. -/
structure FileInfo where
  SourcePath : String
  SourceDir : String
  RelativePath : String
  Pattern : String
  AdjustPaths : Bool
  Overwrite : Bool
  deriving DecidableEq, Repr

/-- `config.TargetDir`. -/
structure TargetDir where
  Path : String
  External : Bool
  IgnoreFiles : List String
  deriving DecidableEq, Repr

/-- `sync.SyncResult`.  Go's `error` field is modelled as `Option String`
and the possibly-nil adjustment slice as a plain list. -/
structure SyncResult where
  SourceFile : String
  TargetFile : String
  Success : Bool
  Error : Option String
  PathAdjustments : List AdjustmentResult
  Skipped : Bool
  SkipReason : String
  deriving DecidableEq, Repr

/-- `Syncer.syncFile` (sync.go): ignore check, overwrite/existence check,
dry-run early return, then directory creation and copy (with or without
path adjustment), threading the filesystem state. -/
def syncFile (dryRun : Bool) (cwd : String) (file : FileInfo) (targetDir : TargetDir)
    (fs : FS) : SyncResult × FS :=
  let relPath := file.RelativePath
  let targetPath := joinPath targetDir.Path relPath
  let base : SyncResult :=
    ⟨file.SourcePath, targetPath, false, none, [], false, ""⟩
  match targetDir.IgnoreFiles.find? (fun pat => matchGlob pat relPath) with
  | some pat =>
    ({ base with
        Skipped := true
        SkipReason := "file matches ignore pattern " ++ pat ++ " in target directory" }, fs)
  | none =>
    if ¬ file.Overwrite ∧ fs.fileExists targetPath then
      ({ base with
          Skipped := true
          SkipReason := "file exists and overwrite=false" }, fs)
    else if dryRun then
      ({ base with Success := true }, fs)
    else
      let fs1 := fs.mkdirAll (dirPath targetPath)
      if file.AdjustPaths then
        match AdjustPaths fs1 file.SourcePath targetPath file.SourceDir targetDir.Path cwd with
        | .error e => ({ base with Error := some ("failed to adjust paths: " ++ e) }, fs1)
        | .ok (adjustments, fs2) =>
          ({ base with
              Success := true
              PathAdjustments := adjustments }, fs2)
      else
        match CopyFile fs1 file.SourcePath targetPath with
        | .error e => ({ base with Error := some ("failed to copy file: " ++ e) }, fs1)
        | .ok fs2 => ({ base with Success := true }, fs2)

/-- The inner loop of `Syncer.Sync`: one file against every target, in
order, threading the filesystem. -/
def syncTargets (dryRun : Bool) (cwd : String) (file : FileInfo) :
    List TargetDir → FS → List SyncResult × FS
  | [], fs => ([], fs)
  | t :: ts, fs =>
    let r := syncFile dryRun cwd file t fs
    let rest := syncTargets dryRun cwd file ts r.2
    (r.1 :: rest.1, rest.2)

/-- `Syncer.Sync` after discovery: every scanned file against every
configured target. -/
def syncAll (dryRun : Bool) (cwd : String) :
    List FileInfo → List TargetDir → FS → List SyncResult × FS
  | [], _, fs => ([], fs)
  | f :: rest, targets, fs =>
    let r := syncTargets dryRun cwd f targets fs
    let more := syncAll dryRun cwd rest targets r.2
    (r.1 ++ more.1, more.2)

/-- The decision shape of a result: the fields fixed by the planning stage
(identity of the pair and the skip outcome). -/
def decisionShape (r : SyncResult) : String × String × Bool × String :=
  (r.SourceFile, r.TargetFile, r.Skipped, r.SkipReason)

theorem splitSlash_ne_nil (l : Chars) : splitSlash l ≠ [] := by
  cases l with
  | nil => simp [splitSlash]
  | cons c cs =>
    simp only [splitSlash]
    split
    · simp
    · split <;> simp


theorem splitSlash_cons_sep (cs : Chars) : splitSlash ('/' :: cs) = [] :: splitSlash cs := by
  simp [splitSlash]

theorem splitSlash_cons_of_ne (c : Char) (cs : Chars) (t : Chars) (ts : List Chars)
    (hc : c ≠ '/') (hsp : splitSlash cs = t :: ts) :
    splitSlash (c :: cs) = (c :: t) :: ts := by
  simp [splitSlash, hc, hsp]

theorem mem_splitSlash_no_sep (l : Chars) : ∀ c ∈ splitSlash l, '/' ∉ c := by
  induction l with
  | nil => simp [splitSlash]
  | cons c cs ih =>
    by_cases hc : c = '/'
    · subst hc
      rw [splitSlash_cons_sep]
      intro x hx
      rcases List.mem_cons.mp hx with h | h
      · simp [h]
      · exact ih x h
    · rcases hsp : splitSlash cs with _ | ⟨t, ts⟩
      · exact absurd hsp (splitSlash_ne_nil cs)
      · rw [splitSlash_cons_of_ne c cs t ts hc hsp]
        intro x hx
        rcases List.mem_cons.mp hx with h | h
        · subst h
          intro hmem
          rcases List.mem_cons.mp hmem with h' | h'
          · exact hc h'.symm
          · exact ih t (by rw [hsp]; exact List.mem_cons_self _ _) h'
        · exact ih x (by rw [hsp]; exact List.mem_cons_of_mem _ h)

theorem splitSlash_sep (a b : Chars) :
    splitSlash (a ++ '/' :: b) = splitSlash a ++ splitSlash b := by
  induction a with
  | nil => simp [splitSlash]
  | cons c cs ih =>
    by_cases hc : c = '/'
    · subst hc
      rw [List.cons_append, splitSlash_cons_sep, splitSlash_cons_sep, ih, List.cons_append]
    · rcases hsp : splitSlash cs with _ | ⟨t, ts⟩
      · exact absurd hsp (splitSlash_ne_nil cs)
      · have hsp' : splitSlash (cs ++ '/' :: b) = t :: (ts ++ splitSlash b) := by
          rw [ih, hsp, List.cons_append]
        rw [List.cons_append, splitSlash_cons_of_ne c _ t (ts ++ splitSlash b) hc hsp',
          splitSlash_cons_of_ne c cs t ts hc hsp, List.cons_append]

theorem splitSlash_single (c : Chars) (hc : '/' ∉ c) : splitSlash c = [c] := by
  induction c with
  | nil => simp [splitSlash]
  | cons x xs ih =>
    have hx : x ≠ '/' := fun h => hc (by simp [h])
    have hxs : splitSlash xs = [xs] := ih (fun h => hc (List.mem_cons_of_mem _ h))
    rw [splitSlash_cons_of_ne x xs xs [] hx hxs]

theorem splitSlash_joinSlash (cs : List Chars) (hne : cs ≠ [])
    (hsep : ∀ c ∈ cs, '/' ∉ c) : splitSlash (joinSlash cs) = cs := by
  induction cs with
  | nil => exact absurd rfl hne
  | cons c cs ih =>
    cases cs with
    | nil => simpa [joinSlash] using splitSlash_single c (hsep c (by simp))
    | cons c' cs' =>
      have hj : joinSlash (c :: c' :: cs') = c ++ '/' :: joinSlash (c' :: cs') := rfl
      rw [hj, splitSlash_sep, splitSlash_single c (hsep c (by simp)),
        ih (by simp) (fun x hx => hsep x (List.mem_cons_of_mem _ hx)), List.singleton_append]

/-! ### Lemmas about `cleanStack` -/

theorem cleanStack_cons_trivial (r : Bool) (stk : List Chars) (c : Chars) (cs : List Chars)
    (h : c = [] ∨ c = ['.']) :
    cleanStack r stk (c :: cs) = cleanStack r stk cs := by
  simp [cleanStack, h]

theorem cleanStack_cons_normal (r : Bool) (stk : List Chars) (c : Chars) (cs : List Chars)
    (h : NormalComp c) :
    cleanStack r stk (c :: cs) = cleanStack r (c :: stk) cs := by
  obtain ⟨h1, h2, h3, _⟩ := h
  simp [cleanStack, h1, h2, h3]

theorem cleanStack_cons_up_pop (r : Bool) (d : Chars) (ds : List Chars) (cs : List Chars)
    (hd : d ≠ ['.', '.']) :
    cleanStack r (d :: ds) (['.', '.'] :: cs) = cleanStack r ds cs := by
  simp [cleanStack, hd]

theorem cleanStack_append_normal (xs : List Chars) :
    ∀ r stk ys, (∀ c ∈ xs, NormalComp c) →
      cleanStack r stk (xs ++ ys) = cleanStack r (xs.reverse ++ stk) ys := by
  induction xs with
  | nil => intro r stk ys _; simp
  | cons x xs ih =>
    intro r stk ys hall
    rw [List.cons_append, cleanStack_cons_normal r stk x _ (hall x (by simp)),
      ih r (x :: stk) ys (fun c hc => hall c (List.mem_cons_of_mem _ hc))]
    simp

theorem cleanStack_cons_push (r : Bool) (stk : List Chars) (c : Chars) (cs : List Chars)
    (h1 : ¬(c = [] ∨ c = ['.'])) (h2 : c ≠ ['.', '.']) :
    cleanStack r stk (c :: cs) = cleanStack r (c :: stk) cs := by
  simp only [cleanStack, if_neg h1, if_neg h2]

theorem dd_mem_cleanStack (cs : List Chars) :
    ∀ r stk, ['.', '.'] ∈ stk → ['.', '.'] ∈ cleanStack r stk cs := by
  induction cs with
  | nil => intro r stk h; simpa [cleanStack] using h
  | cons c cs ih =>
    intro r stk h
    by_cases htriv : c = [] ∨ c = ['.']
    · rw [cleanStack_cons_trivial r stk c cs htriv]; exact ih r stk h
    · by_cases hup : c = ['.', '.']
      · subst hup
        rcases stk with _ | ⟨d, ds⟩
        · simp at h
        · by_cases hd : d = ['.', '.']
          · have heq : cleanStack r (d :: ds) (['.', '.'] :: cs) =
                cleanStack r (['.', '.'] :: d :: ds) cs := by
              simp [cleanStack, hd]
            rw [heq]; exact ih r _ (by simp)
          · rw [cleanStack_cons_up_pop r d ds cs hd]
            have hds : ['.', '.'] ∈ ds := by
              rcases List.mem_cons.mp h with h' | h'
              · exact absurd h'.symm hd
              · exact h'
            exact ih r ds hds
      · rw [cleanStack_cons_push r stk c cs htriv hup]
        exact ih r (c :: stk) (List.mem_cons_of_mem _ h)

/-- Processing a component list that never climbs below its own pushes is
independent of deeper stack content: the run from `stk ++ ext` never touches
`ext`.  The side condition is phrased as `".."` not surviving in the
reference run from `stk` alone. -/
theorem cleanStack_ext (cs : List Chars) :
    ∀ (r : Bool) (stk ext : List Chars), ['.', '.'] ∉ stk →
      ['.', '.'] ∉ cleanStack false stk cs →
      cleanStack r (stk ++ ext) cs = cleanStack false stk cs ++ ext := by
  induction cs with
  | nil => intro r stk ext _ _; simp [cleanStack]
  | cons c cs ih =>
    intro r stk ext hstk hclean
    by_cases htriv : c = [] ∨ c = ['.']
    · rw [cleanStack_cons_trivial, cleanStack_cons_trivial _ _ _ _ htriv]
      · exact ih r stk ext hstk (by rwa [cleanStack_cons_trivial _ _ _ _ htriv] at hclean)
      · exact htriv
    · by_cases hup : c = ['.', '.']
      · subst hup
        rcases stk with _ | ⟨d, ds⟩
        · exfalso
          apply hclean
          have heq : cleanStack false ([] : List Chars) (['.', '.'] :: cs) =
              cleanStack false [['.', '.']] cs := by
            simp [cleanStack]
          rw [heq]
          exact dd_mem_cleanStack cs false _ (by simp)
        · have hd : d ≠ ['.', '.'] := fun h => hstk (by simp [h])
          rw [List.cons_append, cleanStack_cons_up_pop r d (ds ++ ext) cs hd,
            cleanStack_cons_up_pop false d ds cs hd]
          have hds : ['.', '.'] ∉ ds := fun h => hstk (List.mem_cons_of_mem _ h)
          exact ih r ds ext hds
            (by rwa [cleanStack_cons_up_pop false d ds cs hd] at hclean)
      · rw [cleanStack_cons_push r _ c cs htriv hup, cleanStack_cons_push false _ c cs htriv hup,
          ← List.cons_append]
        have hstk' : ['.', '.'] ∉ c :: stk := by
          intro h
          rcases List.mem_cons.mp h with h' | h'
          · exact hup h'.symm
          · exact hstk h'
        exact ih r (c :: stk) ext hstk'
          (by rwa [cleanStack_cons_push false stk c cs htriv hup] at hclean)

/-- `".."` components pop the stack one element at a time. -/
theorem cleanStack_pop_ups (n : Nat) :
    ∀ (r : Bool) (stk : List Chars) (cs : List Chars), ['.', '.'] ∉ stk →
      n ≤ stk.length →
      cleanStack r stk (List.replicate n ['.', '.'] ++ cs) = cleanStack r (stk.drop n) cs := by
  induction n with
  | zero => intro r stk cs _ _; simp
  | succ n ih =>
    intro r stk cs hstk hlen
    rcases stk with _ | ⟨d, ds⟩
    · simp at hlen
    · have hd : d ≠ ['.', '.'] := fun h => hstk (by simp [h])
      rw [List.replicate_succ, List.cons_append, cleanStack_cons_up_pop r d ds _ hd]
      have hds : ['.', '.'] ∉ ds := fun h => hstk (List.mem_cons_of_mem _ h)
      rw [ih r ds cs hds (by simpa using hlen)]
      simp [List.drop_succ_cons]

/-- Every element of the output stack is either from the initial stack, a
`".."`, or a nonempty non-`"."` element of the input. -/
theorem mem_cleanStack (cs : List Chars) :
    ∀ (r : Bool) (stk : List Chars) (x : Chars), x ∈ cleanStack r stk cs →
      x ∈ stk ∨ x = ['.', '.'] ∨ (x ∈ cs ∧ x ≠ [] ∧ x ≠ ['.']) := by
  induction cs with
  | nil => intro r stk x hx; exact Or.inl (by simpa [cleanStack] using hx)
  | cons c cs ih =>
    intro r stk x hx
    by_cases htriv : c = [] ∨ c = ['.']
    · rw [cleanStack_cons_trivial r stk c cs htriv] at hx
      rcases ih r stk x hx with h | h | ⟨h1, h2⟩
      · exact Or.inl h
      · exact Or.inr (Or.inl h)
      · exact Or.inr (Or.inr ⟨List.mem_cons_of_mem _ h1, h2⟩)
    · by_cases hup : c = ['.', '.']
      · subst hup
        rcases stk with _ | ⟨d, ds⟩
        · rcases hr : r with _ | _
          · have heq : cleanStack false ([] : List Chars) (['.', '.'] :: cs) =
                cleanStack false [['.', '.']] cs := by simp [cleanStack]
            rw [hr] at hx
            rw [heq] at hx
            rcases ih false _ x hx with h | h | ⟨h1, h2⟩
            · exact Or.inr (Or.inl (by simpa using h))
            · exact Or.inr (Or.inl h)
            · exact Or.inr (Or.inr ⟨List.mem_cons_of_mem _ h1, h2⟩)
          · have heq : cleanStack true ([] : List Chars) (['.', '.'] :: cs) =
                cleanStack true [] cs := by simp [cleanStack]
            rw [hr] at hx
            rw [heq] at hx
            rcases ih true _ x hx with h | h | ⟨h1, h2⟩
            · exact Or.inl h
            · exact Or.inr (Or.inl h)
            · exact Or.inr (Or.inr ⟨List.mem_cons_of_mem _ h1, h2⟩)
        · by_cases hd : d = ['.', '.']
          · have heq : cleanStack r (d :: ds) (['.', '.'] :: cs) =
                cleanStack r (['.', '.'] :: d :: ds) cs := by simp [cleanStack, hd]
            rw [heq] at hx
            rcases ih r _ x hx with h | h | ⟨h1, h2⟩
            · rcases List.mem_cons.mp h with h' | h'
              · exact Or.inr (Or.inl h')
              · exact Or.inl h'
            · exact Or.inr (Or.inl h)
            · exact Or.inr (Or.inr ⟨List.mem_cons_of_mem _ h1, h2⟩)
          · rw [cleanStack_cons_up_pop r d ds cs hd] at hx
            rcases ih r ds x hx with h | h | ⟨h1, h2⟩
            · exact Or.inl (List.mem_cons_of_mem _ h)
            · exact Or.inr (Or.inl h)
            · exact Or.inr (Or.inr ⟨List.mem_cons_of_mem _ h1, h2⟩)
      · rw [cleanStack_cons_push r stk c cs htriv hup] at hx
        rcases ih r _ x hx with h | h | ⟨h1, h2⟩
        · rcases List.mem_cons.mp h with h' | h'
          · subst h'
            push_neg at htriv
            exact Or.inr (Or.inr ⟨List.mem_cons_self _ _, htriv.1, htriv.2⟩)
          · exact Or.inl h'
        · exact Or.inr (Or.inl h)
        · exact Or.inr (Or.inr ⟨List.mem_cons_of_mem _ h1, h2⟩)

/-- With a rooted path, `".."` never survives cleaning. -/
theorem cleanStack_rooted_no_dd (cs : List Chars) :
    ∀ stk, ['.', '.'] ∉ stk → ['.', '.'] ∉ cleanStack true stk cs := by
  induction cs with
  | nil => intro stk hstk; simpa [cleanStack] using hstk
  | cons c cs ih =>
    intro stk hstk
    by_cases htriv : c = [] ∨ c = ['.']
    · rw [cleanStack_cons_trivial true stk c cs htriv]; exact ih stk hstk
    · by_cases hup : c = ['.', '.']
      · subst hup
        rcases stk with _ | ⟨d, ds⟩
        · have heq : cleanStack true ([] : List Chars) (['.', '.'] :: cs) =
              cleanStack true [] cs := by simp [cleanStack]
          rw [heq]
          exact ih [] (by simp)
        · have hd : d ≠ ['.', '.'] := fun h => hstk (by simp [h])
          rw [cleanStack_cons_up_pop true d ds cs hd]
          exact ih ds (fun h => hstk (List.mem_cons_of_mem _ h))
      · rw [cleanStack_cons_push true stk c cs htriv hup]
        exact ih (c :: stk)
          (by intro h
              rcases List.mem_cons.mp h with h' | h'
              · exact hup h'.symm
              · exact hstk h')

/-! ### Rendered rooted paths -/

theorem isRooted_renderPath_true (d : List Chars) : isRooted (renderPath true d) = true := by
  simp [renderPath, isRooted]

theorem renderPath_true_ne_nil (d : List Chars) : renderPath true d ≠ [] := by
  simp [renderPath]

theorem renderPath_true_ne_dot (d : List Chars) : renderPath true d ≠ ['.'] := by
  simp only [renderPath, if_pos]
  intro h
  exact absurd (List.head_eq_of_cons_eq h) (by decide)

theorem splitSlash_renderPath_true (d : List Chars) (hne : d ≠ [])
    (hsep : ∀ c ∈ d, '/' ∉ c) : splitSlash (renderPath true d) = [] :: d := by
  simp only [renderPath, if_pos]
  rw [splitSlash_cons_sep, splitSlash_joinSlash d hne hsep]

theorem cleanStack_splitRender_true (d : List Chars) (hd : ∀ c ∈ d, NormalComp c) :
    ∀ (stk : List Chars) (rest : List Chars) (r : Bool),
      cleanStack r stk (splitSlash (renderPath true d) ++ rest) =
        cleanStack r (d.reverse ++ stk) rest := by
  intro stk rest r
  rcases hdn : d with _ | ⟨c, cs⟩
  · have : splitSlash (renderPath true ([] : List Chars)) = [[], []] := by
      simp [renderPath, joinSlash, splitSlash]
    rw [this]
    simp [cleanStack_cons_trivial]
  · rw [← hdn]
    have hne : d ≠ [] := by rw [hdn]; simp
    rw [splitSlash_renderPath_true d hne (fun c hc => (hd c hc).2.2.2), List.cons_append,
      cleanStack_cons_trivial r stk [] _ (Or.inl rfl), cleanStack_append_normal d r stk rest hd]

theorem compsOf_renderPath_true (d : List Chars) (hd : ∀ c ∈ d, NormalComp c) :
    compsOf (renderPath true d) = d := by
  rcases hdn : d with _ | ⟨c, cs⟩
  · have : splitSlash (renderPath true ([] : List Chars)) = [[], []] := by
      simp [renderPath, joinSlash, splitSlash]
    simp [compsOf, this]
  · rw [← hdn]
    have hne : d ≠ [] := by rw [hdn]; simp
    rw [compsOf, splitSlash_renderPath_true d hne (fun c hc => (hd c hc).2.2.2)]
    rw [List.filter_cons]
    simp only [decide_not]
    rw [if_neg (by simp)]
    exact List.filter_eq_self.mpr (fun a ha => by simpa using (hd a ha).1)

theorem cleanL_renderPath_true (d : List Chars) (hd : ∀ c ∈ d, NormalComp c) :
    cleanL (renderPath true d) = renderPath true d := by
  rw [cleanL, isRooted_renderPath_true, cleanComps]
  have := cleanStack_splitRender_true d hd [] [] true
  rw [List.append_nil] at this
  rw [this]
  simp [cleanStack]

theorem renderPath_true_inj (d e : List Chars) (hd : ∀ c ∈ d, NormalComp c)
    (he : ∀ c ∈ e, NormalComp c) (h : renderPath true d = renderPath true e) : d = e := by
  have := congrArg compsOf h
  rwa [compsOf_renderPath_true d hd, compsOf_renderPath_true e he] at this

theorem cleanL_goodAbs (l : Chars) (h : isRooted l = true) : GoodAbs (cleanL l) := by
  refine ⟨cleanComps true (splitSlash l), ?_, by rw [cleanL, h]⟩
  intro c hc
  rw [cleanComps, List.mem_reverse] at hc
  have hdd : c ≠ ['.', '.'] := by
    intro hceq
    subst hceq
    exact cleanStack_rooted_no_dd (splitSlash l) [] (by simp) hc
  rcases mem_cleanStack (splitSlash l) true [] c hc with h' | h' | ⟨h1, h2, h3⟩
  · simp at h'
  · exact absurd h' hdd
  · exact ⟨h2, h3, hdd, mem_splitSlash_no_sep l c h1⟩

theorem isRooted_append (a b : Chars) (ha : a ≠ []) : isRooted (a ++ b) = isRooted a := by
  rcases a with _ | ⟨c, cs⟩
  · exact absurd rfl ha
  · by_cases hc : c = '/' <;> simp [isRooted, hc]

theorem absL_goodAbs (cwd l : Chars) (h : isRooted cwd = true) : GoodAbs (absL cwd l) := by
  rw [absL]
  by_cases hl : isRooted l = true
  · rw [if_pos hl]; exact cleanL_goodAbs l hl
  · rw [if_neg hl, joinL]
    have hcwd_ne : cwd ≠ [] := by
      intro hc; rw [hc] at h; simp [isRooted] at h
    rw [if_neg hcwd_ne]
    by_cases hlnil : l = []
    · rw [if_pos hlnil]
      exact cleanL_goodAbs _ (by rw [isRooted_append cwd ['/'] hcwd_ne]; exact h)
    · rw [if_neg hlnil]
      exact cleanL_goodAbs _ (by rw [isRooted_append cwd ('/' :: l) hcwd_ne]; exact h)

/-! ### Joining an absolute directory with a relative path -/

theorem relComps_normal (p : Chars) (hnd : ['.', '.'] ∉ relComps p) :
    ∀ c ∈ relComps p, NormalComp c := by
  intro c hc
  have hdd : c ≠ ['.', '.'] := fun h => hnd (h ▸ hc)
  rw [relComps, cleanComps, List.mem_reverse] at hc
  rcases mem_cleanStack (splitSlash p) false [] c hc with h' | h' | ⟨h1, h2, h3⟩
  · simp at h'
  · exact absurd h' hdd
  · exact ⟨h2, h3, hdd, mem_splitSlash_no_sep p c h1⟩

theorem joinL_abs_rel (d : List Chars) (p : Chars) (hd : ∀ c ∈ d, NormalComp c)
    (hp : p ≠ []) (hnd : ['.', '.'] ∉ relComps p) :
    joinL (renderPath true d) p = renderPath true (d ++ relComps p) := by
  rw [joinL, if_neg (renderPath_true_ne_nil d), if_neg hp, cleanL,
    isRooted_append _ _ (renderPath_true_ne_nil d), isRooted_renderPath_true]
  have hsp : splitSlash (renderPath true d ++ '/' :: p) =
      splitSlash (renderPath true d) ++ splitSlash p := splitSlash_sep _ _
  rw [cleanComps, hsp, cleanStack_splitRender_true d hd [] (splitSlash p) true,
    List.append_nil]
  have hext := cleanStack_ext (splitSlash p) true [] d.reverse (by simp)
    (by rw [relComps, cleanComps] at hnd
        intro hmem
        exact hnd (List.mem_reverse.mpr hmem))
  rw [List.nil_append] at hext
  rw [hext]
  rw [List.reverse_append, List.reverse_reverse]
  rfl

/-! ### `dropCommon` and `relL` -/

theorem dropCommon_spec (x : List Chars) :
    ∀ y, ∃ comm, x = comm ++ (dropCommon x y).1 ∧ y = comm ++ (dropCommon x y).2 := by
  induction x with
  | nil => intro y; exact ⟨[], by simp [dropCommon]⟩
  | cons a as' ih =>
    intro y
    rcases y with _ | ⟨b, bs⟩
    · exact ⟨[], by simp [dropCommon]⟩
    · by_cases hab : a = b
      · obtain ⟨comm, h1, h2⟩ := ih bs
        subst hab
        refine ⟨a :: comm, ?_, ?_⟩
        · simp only [dropCommon, if_pos rfl, List.cons_append, List.cons.injEq, true_and]
          exact h1
        · simp only [dropCommon, if_pos rfl, List.cons_append, List.cons.injEq, true_and]
          exact h2
      · exact ⟨[], by simp [dropCommon, hab]⟩

theorem dropCommon_append (x : List Chars) :
    ∀ y, dropCommon x (x ++ y) = ([], y) := by
  induction x with
  | nil =>
    intro y
    rcases y with _ | ⟨b, bs⟩ <;> simp [dropCommon]
  | cons a as' ih => intro y; simp [dropCommon, ih]

theorem relL_render_render (b t : List Chars) (hb : ∀ c ∈ b, NormalComp c)
    (ht : ∀ c ∈ t, NormalComp c) :
    relL (renderPath true b) (renderPath true t) =
      some (if b = t then ['.']
        else joinSlash (List.replicate (dropCommon b t).1.length ['.', '.'] ++
          (dropCommon b t).2)) := by
  rw [relL]
  simp only [cleanL_renderPath_true b hb, cleanL_renderPath_true t ht]
  by_cases hbt : b = t
  · subst hbt
    simp
  · have hne : renderPath true b ≠ renderPath true t := fun h =>
      hbt (renderPath_true_inj b t hb ht h)
    rw [if_neg hne, isRooted_renderPath_true, isRooted_renderPath_true]
    simp only [ne_eq, not_true_eq_false, if_false, ite_not]
    rw [if_neg (renderPath_true_ne_dot b), compsOf_renderPath_true b hb,
      compsOf_renderPath_true t ht]
    have hhead : (dropCommon b t).1.head? ≠ some ['.', '.'] := by
      intro h
      obtain ⟨comm, h1, _⟩ := dropCommon_spec b t
      rcases hdc : (dropCommon b t).1 with _ | ⟨z, zs⟩
      · rw [hdc] at h; simp at h
      · rw [hdc] at h
        simp only [List.head?_cons, Option.some.injEq] at h
        have hz : z ∈ b := by
          rw [h1, hdc]
          exact List.mem_append.mpr (Or.inr (by simp))
        exact (hb z hz).2.2.1 h
    rw [if_neg hhead, if_neg hbt]

theorem relL_abs_append (d pc : List Chars) (hd : ∀ c ∈ d, NormalComp c)
    (hpc : ∀ c ∈ pc, NormalComp c) :
    relL (renderPath true d) (renderPath true (d ++ pc)) =
      some (if pc = [] then ['.'] else joinSlash pc) := by
  rw [relL_render_render d (d ++ pc) hd
    (by intro c hc
        rcases List.mem_append.mp hc with h | h
        · exact hd c h
        · exact hpc c h)]
  by_cases hpcn : pc = []
  · simp [hpcn]
  · have hne : d ≠ d ++ pc := by
      intro h
      have hlen := congrArg List.length h
      rw [List.length_append] at hlen
      have hz : pc.length = 0 := by omega
      exact hpcn (List.length_eq_zero.mp hz)
    rw [if_neg hne, dropCommon_append d pc]
    simp [hpcn]

/-! ### `canonRel` facts -/

theorem not_startsWith_of_normal (c m : Chars) (hc : NormalComp c)
    (hm : m = [] ∨ ∃ m', m = '/' :: m') :
    startsWithL ['.', '/'] (c ++ m) = false ∧ startsWithL ['.', '.', '/'] (c ++ m) = false := by
  obtain ⟨hne, hdot, hdd, hsep⟩ := hc
  rcases c with _ | ⟨a, c1⟩
  · exact absurd rfl hne
  rcases c1 with _ | ⟨b, c2⟩
  · rcases hm with hm | ⟨m', hm⟩ <;> subst hm
    · constructor <;> simp [startsWithL]
    · have ha : ¬('.' = a) := fun h => hdot (by rw [← h])
      constructor
      · simp [startsWithL, ha]
      · simp [startsWithL, ha]
  · constructor
    · have hb : ¬('/' = b) := by
        intro h
        apply hsep
        rw [h]
        exact List.mem_cons_of_mem a (List.mem_cons_self b c2)
      simp [startsWithL, hb]
    · by_cases ha : '.' = a
      · by_cases hb : '.' = b
        · subst ha; subst hb
          rcases c2 with _ | ⟨e, t⟩
          · exact absurd rfl hdd
          · have he : ¬('/' = e) := by
              intro h
              apply hsep
              rw [h]
              exact List.mem_cons_of_mem _ (List.mem_cons_of_mem _ (List.mem_cons_self e t))
            simp [startsWithL, he]
        · simp [startsWithL, hb]
      · simp [startsWithL, ha]

theorem canonRel_joinSlash_normal (pc : List Chars) (h : ∀ c ∈ pc, NormalComp c)
    (hne : pc ≠ []) : canonRel (joinSlash pc) = '.' :: '/' :: joinSlash pc := by
  rcases pc with _ | ⟨c, rest⟩
  · exact absurd rfl hne
  · have hc := h c (List.mem_cons_self _ _)
    rcases rest with _ | ⟨c', rest'⟩
    · have hj : joinSlash [c] = c := rfl
      rw [hj, canonRel]
      have hns := not_startsWith_of_normal c [] hc (Or.inl rfl)
      rw [List.append_nil] at hns
      rw [if_neg (by rw [hns.1, hns.2]; simp), ← hj]
    · have hj : joinSlash (c :: c' :: rest') = c ++ '/' :: joinSlash (c' :: rest') := rfl
      rw [hj, canonRel]
      have hns := not_startsWith_of_normal c ('/' :: joinSlash (c' :: rest')) hc
        (Or.inr ⟨_, rfl⟩)
      rw [if_neg (by rw [hns.1, hns.2]; simp), ← hj]

theorem canonRel_dot : canonRel ['.'] = ['.', '/', '.'] := by decide

theorem canonRel_ne_nil (r : Chars) : canonRel r ≠ [] := by
  rw [canonRel]
  rcases r with _ | ⟨c, cs⟩
  · simp [startsWithL]
  · split <;> simp

theorem startsWith_dotSlash_shape (p : Chars) (h : startsWithL ['.', '/'] p = true) :
    ∃ rest, p = '.' :: '/' :: rest := by
  rcases p with _ | ⟨c, cs⟩
  · simp [startsWithL] at h
  rcases cs with _ | ⟨c', cs'⟩
  · simp [startsWithL] at h
  · simp only [startsWithL, Bool.and_eq_true, decide_eq_true_eq] at h
    obtain ⟨h1, h2, _⟩ := h
    exact ⟨cs', by rw [← h1, ← h2]⟩

theorem isRooted_dot_cons (rest : Chars) : isRooted ('.' :: rest) = false := rfl

/-! ### Claim C1: relocation with identical anchors -/

theorem cleanL_of_not_rooted (p : Chars) (h : isRooted p = false) :
    cleanL p = (if relComps p = [] then ['.'] else joinSlash (relComps p)) := by
  rw [cleanL, h, renderPath, relComps]
  simp

/-- C1 counterexample: relocating `"../b"` from anchor `"/a/b"` to the same
anchor yields `"./."`, not the original path, refuting the claim that
`adjustPath(p, A, A) = p` for every relative `p`. -/
theorem adjustPath_same_anchor_cex :
    adjustPath "../b" "/a/b" "/a/b" "/" = some "./." ∧ ("./." : String) ≠ "../b" := by
  constructor
  · rfl
  · decide

/-- C1 (amended): with identical source and target anchors, `adjustPath`
returns `p` unchanged provided `p` begins with `"./"`, its cleaned form
contains no `".."` component, and `p` is already in the canonical
`"./"`-prefixed cleaned form.  (The original claim fails for paths that
clean differently, e.g. `"./a/../b"`, and for `".."`-climbing paths that
re-enter the anchor, e.g. `"../b"` under `"/a/b"`.) -/
theorem adjustPath_same_anchor (cwd A p : String)
    (hcwd : isRooted cwd.data = true)
    (hrel : startsWithL ['.', '/'] p.data = true)
    (hnd : ['.', '.'] ∉ relComps p.data)
    (hcanon : canonRel (cleanL p.data) = p.data) :
    adjustPath p A A cwd = some p := by
  obtain ⟨d, hd, hD⟩ := absL_goodAbs cwd.data A.data hcwd
  obtain ⟨rest, hrest⟩ := startsWith_dotSlash_shape p.data hrel
  have hpne : p.data ≠ [] := by rw [hrest]; simp
  have hjoin : joinL (absL cwd.data A.data) p.data =
      renderPath true (d ++ relComps p.data) := by
    rw [hD]; exact joinL_abs_rel d p.data hd hpne hnd
  have hrelL : relL (absL cwd.data A.data) (joinL (absL cwd.data A.data) p.data) =
      some (if relComps p.data = [] then ['.'] else joinSlash (relComps p.data)) := by
    rw [hjoin, hD]
    exact relL_abs_append d (relComps p.data) hd (relComps_normal _ hnd)
  have hclean : cleanL p.data =
      (if relComps p.data = [] then ['.'] else joinSlash (relComps p.data)) :=
    cleanL_of_not_rooted p.data (by rw [hrest]; exact isRooted_dot_cons rest)
  rw [adjustPath, adjustPathL]
  simp only [hrelL]
  rw [← hclean, hcanon]
  rfl

/-- C1 witness: a concrete run of the amended identity. -/
theorem adjustPath_same_anchor_witness :
    adjustPath "./x" "/a" "/a" "/" = some "./x" :=
  adjustPath_same_anchor "/" "/a" "./x" (by decide) (by decide) (by decide) (by decide)

/-! ### Claim C2: round-trip relocation -/

theorem joinL_render_eq (b : List Chars) (q : Chars) (hb : ∀ c ∈ b, NormalComp c)
    (hq : q ≠ []) :
    joinL (renderPath true b) q =
      renderPath true ((cleanStack true b.reverse (splitSlash q)).reverse) := by
  rw [joinL, if_neg (renderPath_true_ne_nil b), if_neg hq, cleanL,
    isRooted_append _ _ (renderPath_true_ne_nil b), isRooted_renderPath_true, cleanComps,
    splitSlash_sep]
  have h := cleanStack_splitRender_true b hb [] (splitSlash q) true
  rw [List.append_nil] at h
  rw [h]

theorem splitSlash_dotdot : splitSlash ['.', '.'] = [['.', '.']] := by decide

/-- Resolving the result of `Rel` (after the `./`-prefix fixup) against the
base recovers the target: `Join(B, canon(Rel(B, T))) = T` for cleaned rooted
paths. -/
theorem joinL_canonRel_relL (b t : List Chars) (hb : ∀ c ∈ b, NormalComp c)
    (ht : ∀ c ∈ t, NormalComp c) (r : Chars)
    (hr : relL (renderPath true b) (renderPath true t) = some r) :
    joinL (renderPath true b) (canonRel r) = renderPath true t := by
  rw [relL_render_render b t hb ht, Option.some_inj] at hr
  subst hr
  by_cases hbt : b = t
  · subst hbt
    rw [if_pos rfl, canonRel_dot,
      joinL_render_eq b ['.', '/', '.'] hb (by simp)]
    have hsp : splitSlash ['.', '/', '.'] = [['.'], ['.']] := by decide
    rw [hsp, cleanStack_cons_trivial true _ ['.'] _ (Or.inr rfl),
      cleanStack_cons_trivial true _ ['.'] _ (Or.inr rfl)]
    simp [cleanStack]
  · rw [if_neg hbt]
    obtain ⟨comm, h1, h2⟩ := dropCommon_spec b t
    set brest := (dropCommon b t).1 with hbrest
    set trest := (dropCommon b t).2 with htrest
    have hbrest_mem : ∀ c ∈ brest, NormalComp c := fun c hc =>
      hb c (by rw [h1]; exact List.mem_append.mpr (Or.inr hc))
    have htrest_mem : ∀ c ∈ trest, NormalComp c := fun c hc =>
      ht c (by rw [h2]; exact List.mem_append.mpr (Or.inr hc))
    have hRne : List.replicate brest.length ['.', '.'] ++ trest ≠ [] := by
      intro h
      rcases List.append_eq_nil.mp h with ⟨hu, hv⟩
      have hbe : brest = [] := by
        have := congrArg List.length hu
        simpa using this
      exact hbt (by rw [h1, h2, hbe, hv])
    have hsplitq : splitSlash (canonRel (joinSlash
        (List.replicate brest.length ['.', '.'] ++ trest))) =
          ['.'] :: (List.replicate brest.length ['.', '.'] ++ trest) ∨
        splitSlash (canonRel (joinSlash
        (List.replicate brest.length ['.', '.'] ++ trest))) =
          List.replicate brest.length ['.', '.'] ++ trest := by
      rcases hk : brest.length with _ | k
      · left
        have hte : trest ≠ [] := by
          intro h
          apply hRne
          rw [hk, h]
          simp
        simp only [List.replicate_zero, List.nil_append]
        rw [canonRel_joinSlash_normal trest htrest_mem hte]
        have : ('.' : Char) :: '/' :: joinSlash trest = ['.'] ++ '/' :: joinSlash trest := rfl
        rw [this, splitSlash_sep,
          splitSlash_joinSlash trest hte (fun c hc => (htrest_mem c hc).2.2.2)]
        rfl
      · -- leading ".." components
        rcases htr : trest with _ | ⟨w, ws⟩
        · rcases hk1 : k with _ | k'
          · -- exactly one ".." and nothing else
            left
            decide
          · -- at least two ".."
            right
            rw [List.append_nil]
            have hform : List.replicate (k' + 1 + 1) ['.', '.'] =
                ['.', '.'] :: List.replicate (k' + 1) ['.', '.'] := by
              rw [List.replicate_succ]
            rw [hform]
            have hjs : joinSlash (['.', '.'] :: List.replicate (k' + 1) ['.', '.']) =
                ['.', '.'] ++ '/' :: joinSlash (List.replicate (k' + 1) ['.', '.']) := by
              rw [List.replicate_succ]
              rfl
            have hcr : canonRel (joinSlash (['.', '.'] :: List.replicate (k' + 1) ['.', '.'])) =
                joinSlash (['.', '.'] :: List.replicate (k' + 1) ['.', '.']) := by
              rw [canonRel, if_pos]
              rw [hjs]
              right
              simp [startsWithL]
            rw [hcr]
            refine splitSlash_joinSlash _ (by simp) ?_
            intro c hc
            rcases List.mem_cons.mp hc with h | h
            · rw [h]; decide
            · rw [List.eq_of_mem_replicate h]; decide
        · right
          rw [List.replicate_succ, List.cons_append]
          have hjs2 : joinSlash (['.', '.'] :: (List.replicate k ['.', '.'] ++ w :: ws)) =
              ['.', '.'] ++ '/' :: joinSlash (List.replicate k ['.', '.'] ++ w :: ws) := by
            rcases hl : List.replicate k ['.', '.'] ++ w :: ws with _ | ⟨z, zs⟩
            · exact absurd hl (by simp)
            · rfl
          have hcr : canonRel (joinSlash (['.', '.'] :: (List.replicate k ['.', '.'] ++ w :: ws))) =
              joinSlash (['.', '.'] :: (List.replicate k ['.', '.'] ++ w :: ws)) := by
            rw [canonRel, if_pos]
            rw [hjs2]
            right
            simp [startsWithL]
          rw [hcr]
          refine splitSlash_joinSlash _ (by simp) ?_
          intro c hc
          rcases List.mem_cons.mp hc with h | h
          · rw [h]; decide
          · rcases List.mem_append.mp h with h' | h'
            · rw [List.eq_of_mem_replicate h']; decide
            · exact (htrest_mem c (by rw [htr]; exact h')).2.2.2
    -- now resolve against b
    rw [joinL_render_eq b _ hb (canonRel_ne_nil _)]
    have hdd_rev : ['.', '.'] ∉ b.reverse := by
      intro h
      exact (hb _ (List.mem_reverse.mp h)).2.2.1 rfl
    have hrevb : b.reverse = brest.reverse ++ comm.reverse := by
      rw [h1, List.reverse_append]
    have hlen : brest.length ≤ b.reverse.length := by
      rw [List.length_reverse, h1, List.length_append]
      omega
    have hpop : cleanStack true b.reverse
        (List.replicate brest.length ['.', '.'] ++ trest) =
          cleanStack true (b.reverse.drop brest.length) trest :=
      cleanStack_pop_ups brest.length true b.reverse trest hdd_rev hlen
    have hdrop : b.reverse.drop brest.length = comm.reverse := by
      rw [hrevb, ← List.length_reverse brest, List.drop_left]
    have hfinal : cleanStack true comm.reverse trest = trest.reverse ++ comm.reverse := by
      have := cleanStack_append_normal trest true comm.reverse [] htrest_mem
      rw [List.append_nil] at this
      rw [this]
      rfl
    rcases hsplitq with hs | hs
    · rw [hs, cleanStack_cons_trivial true _ ['.'] _ (Or.inr rfl), hpop, hdrop, hfinal]
      rw [List.reverse_append, List.reverse_reverse, List.reverse_reverse, ← h2]
    · rw [hs, hpop, hdrop, hfinal]
      rw [List.reverse_append, List.reverse_reverse, List.reverse_reverse, ← h2]

/-- C2 counterexample: relocating `"../b"` from `"/a/b"` to `"/c"` and back
yields `"./."`, which normalizes to `"."` while the original normalizes to
`"../b"` — the round trip does not return the original even up to
`./`-vs-`../` canonicalization. -/
theorem adjustPath_roundtrip_cex :
    (adjustPath "../b" "/a/b" "/c" "/").bind (fun q => adjustPath q "/c" "/a/b" "/") =
        some "./." ∧
      cleanL ("./." : String).data = ['.'] ∧
      cleanL ("../b" : String).data = ['.', '.', '/', 'b'] := by
  refine ⟨rfl, by decide, by decide⟩

/-- C2 (amended): for a path `p` beginning with `"./"` whose cleaned form
contains no `".."` component, relocating from anchor `A` to anchor `B` and
back returns the canonical cleaned form of `p` (so exactly `p` whenever `p`
is already canonical).  Paths that climb with `".."` can be clamped at the
filesystem root or collapsed against the anchors, and then the round trip
differs from `p` even after normalization. -/
theorem adjustPath_roundtrip (cwd A B p : String)
    (hcwd : isRooted cwd.data = true)
    (hrel : startsWithL ['.', '/'] p.data = true)
    (hnd : ['.', '.'] ∉ relComps p.data) :
    (adjustPath p A B cwd).bind (fun q => adjustPath q B A cwd) =
      some (String.mk (canonRel (cleanL p.data))) := by
  obtain ⟨a, ha, hA⟩ := absL_goodAbs cwd.data A.data hcwd
  obtain ⟨b, hb, hB⟩ := absL_goodAbs cwd.data B.data hcwd
  obtain ⟨rest, hrest⟩ := startsWith_dotSlash_shape p.data hrel
  have hpne : p.data ≠ [] := by rw [hrest]; simp
  have hpc := relComps_normal p.data hnd
  have hapc : ∀ c ∈ a ++ relComps p.data, NormalComp c := by
    intro c hc
    rcases List.mem_append.mp hc with h | h
    · exact ha c h
    · exact hpc c h
  have hjoin : joinL (absL cwd.data A.data) p.data =
      renderPath true (a ++ relComps p.data) := by
    rw [hA]; exact joinL_abs_rel a p.data ha hpne hnd
  -- the forward relocation
  have hr1 : relL (absL cwd.data B.data) (joinL (absL cwd.data A.data) p.data) =
      some (if b = a ++ relComps p.data then ['.']
        else joinSlash (List.replicate (dropCommon b (a ++ relComps p.data)).1.length
          ['.', '.'] ++ (dropCommon b (a ++ relComps p.data)).2)) := by
    rw [hjoin, hB]
    exact relL_render_render b (a ++ relComps p.data) hb hapc
  -- the backward join recovers the absolute location
  have hback : joinL (absL cwd.data B.data)
      (canonRel (if b = a ++ relComps p.data then ['.']
        else joinSlash (List.replicate (dropCommon b (a ++ relComps p.data)).1.length
          ['.', '.'] ++ (dropCommon b (a ++ relComps p.data)).2))) =
        renderPath true (a ++ relComps p.data) := by
    rw [hB]
    refine joinL_canonRel_relL b (a ++ relComps p.data) hb hapc _ ?_
    rw [relL_render_render b (a ++ relComps p.data) hb hapc]
  -- the backward relocation
  have hr2 : relL (absL cwd.data A.data) (renderPath true (a ++ relComps p.data)) =
      some (if relComps p.data = [] then ['.'] else joinSlash (relComps p.data)) := by
    rw [hA]
    exact relL_abs_append a (relComps p.data) ha (relComps_normal _ hnd)
  have hclean : cleanL p.data =
      (if relComps p.data = [] then ['.'] else joinSlash (relComps p.data)) :=
    cleanL_of_not_rooted p.data (by rw [hrest]; exact isRooted_dot_cons rest)
  rw [adjustPath, adjustPathL]
  simp only [hr1, Option.map_some', Option.bind_some, Option.some_bind]
  rw [adjustPath, adjustPathL]
  simp only [String.data]
  rw [hback, hr2, ← hclean]
  rfl

/-- C2 witness: a concrete round trip through unrelated anchors. -/
theorem adjustPath_roundtrip_witness :
    (adjustPath "./y/z.md" "/a" "/b/c" "/").bind (fun q => adjustPath q "/b/c" "/a" "/") =
      some (String.mk (canonRel (cleanL ("./y/z.md" : String).data))) :=
  adjustPath_roundtrip "/" "/a" "/b/c" "./y/z.md" (by decide) (by decide) (by decide)

/-! ### Claims C5, C6, C10, C4: sync decision logic -/

theorem ignoreReason_ne_empty (pat : String) :
    ("file matches ignore pattern " ++ pat ++ " in target directory") ≠ "" := by
  intro h
  have hd := congrArg String.data h
  simp [String.data_append] at hd

/-- C10: every `syncFile` result is exactly one of skipped (with a nonempty
reason, no error, no success), errored (not skipped, not successful), or
successful (not skipped, no error). -/
theorem syncFile_trichotomy (dryRun : Bool) (cwd : String) (file : FileInfo)
    (targetDir : TargetDir) (fs : FS) :
    ((syncFile dryRun cwd file targetDir fs).1.Skipped = true ∧
      (syncFile dryRun cwd file targetDir fs).1.SkipReason ≠ "" ∧
      (syncFile dryRun cwd file targetDir fs).1.Error = none ∧
      (syncFile dryRun cwd file targetDir fs).1.Success = false) ∨
    ((syncFile dryRun cwd file targetDir fs).1.Error ≠ none ∧
      (syncFile dryRun cwd file targetDir fs).1.Skipped = false ∧
      (syncFile dryRun cwd file targetDir fs).1.SkipReason = "" ∧
      (syncFile dryRun cwd file targetDir fs).1.Success = false) ∨
    ((syncFile dryRun cwd file targetDir fs).1.Success = true ∧
      (syncFile dryRun cwd file targetDir fs).1.Skipped = false ∧
      (syncFile dryRun cwd file targetDir fs).1.SkipReason = "" ∧
      (syncFile dryRun cwd file targetDir fs).1.Error = none) := by
  simp only [syncFile]
  rcases hig : targetDir.IgnoreFiles.find? (fun pat => matchGlob pat file.RelativePath)
    with _ | pat
  · simp only
    by_cases hskip : ¬ file.Overwrite ∧
        (fs.fileExists (joinPath targetDir.Path file.RelativePath)) = true
    · rw [if_pos hskip]
      left
      exact ⟨rfl, by simp, rfl, rfl⟩
    · rw [if_neg hskip]
      by_cases hdry : dryRun = true
      · rw [if_pos hdry]
        right; right
        exact ⟨rfl, rfl, rfl, rfl⟩
      · rw [if_neg hdry]
        by_cases hadj : file.AdjustPaths = true
        · rw [if_pos hadj]
          rcases AdjustPaths (fs.mkdirAll (dirPath (joinPath targetDir.Path file.RelativePath)))
            file.SourcePath (joinPath targetDir.Path file.RelativePath) file.SourceDir
            targetDir.Path cwd with e | ⟨adjs, fs2⟩
          · right; left
            exact ⟨by simp, rfl, rfl, rfl⟩
          · right; right
            exact ⟨rfl, rfl, rfl, rfl⟩
        · rw [if_neg hadj]
          rcases CopyFile (fs.mkdirAll (dirPath (joinPath targetDir.Path file.RelativePath)))
            file.SourcePath (joinPath targetDir.Path file.RelativePath) with e | fs2
          · right; left
            exact ⟨by simp, rfl, rfl, rfl⟩
          · right; right
            exact ⟨rfl, rfl, rfl, rfl⟩
  · left
    exact ⟨rfl, ignoreReason_ne_empty pat, rfl, rfl⟩

/-- C5 counterexample: the skip reason recorded for an ignored file is
`"file matches ignore pattern <pattern> in target directory"`, not the
literal reason `"matches ignore pattern"` stated by the claim. -/
theorem syncFile_skip_ignored_cex :
    (syncFile false "/" ⟨"/s/a.md", "/s", "a.md", "*", false, true⟩
        ⟨"/t", false, ["*.md"]⟩ ⟨[], []⟩).1.Skipped = true ∧
      (syncFile false "/" ⟨"/s/a.md", "/s", "a.md", "*", false, true⟩
        ⟨"/t", false, ["*.md"]⟩ ⟨[], []⟩).1.SkipReason =
          "file matches ignore pattern *.md in target directory" ∧
      (syncFile false "/" ⟨"/s/a.md", "/s", "a.md", "*", false, true⟩
        ⟨"/t", false, ["*.md"]⟩ ⟨[], []⟩).1.SkipReason ≠ "matches ignore pattern" := by
  refine ⟨rfl, rfl, by decide⟩

/-- C5 (amended): when the file's relative path matches an ignore pattern of
the target (the first matching pattern in configured order), `syncFile`
skips the pair — with reason `"file matches ignore pattern <pattern> in
target directory"` — regardless of the overwrite setting and of the dry-run
flag, before the overwrite/existence check, and leaves the filesystem
untouched. -/
theorem syncFile_skip_ignored (dryRun : Bool) (cwd : String) (file : FileInfo)
    (targetDir : TargetDir) (fs : FS) (pat : String)
    (hig : targetDir.IgnoreFiles.find? (fun p => matchGlob p file.RelativePath) = some pat) :
    syncFile dryRun cwd file targetDir fs =
      ({ SourceFile := file.SourcePath
         TargetFile := joinPath targetDir.Path file.RelativePath
         Success := false
         Error := none
         PathAdjustments := []
         Skipped := true
         SkipReason := "file matches ignore pattern " ++ pat ++ " in target directory" }, fs) := by
  simp only [syncFile, hig]

/-- C5 witness: a concrete ignored pair, with overwrite enabled and the
target file present, still skips with the ignore reason. -/
theorem syncFile_skip_ignored_witness :
    syncFile false "/" ⟨"/s/a.md", "/s", "a.md", "*", true, true⟩
        ⟨"/t", false, ["*.md"]⟩ ⟨[("/t/a.md", "old")], []⟩ =
      ({ SourceFile := "/s/a.md"
         TargetFile := joinPath "/t" "a.md"
         Success := false
         Error := none
         PathAdjustments := []
         Skipped := true
         SkipReason := "file matches ignore pattern " ++ "*.md" ++ " in target directory" },
        ⟨[("/t/a.md", "old")], []⟩) :=
  syncFile_skip_ignored false "/" ⟨"/s/a.md", "/s", "a.md", "*", true, true⟩
    ⟨"/t", false, ["*.md"]⟩ ⟨[("/t/a.md", "old")], []⟩ "*.md" (by decide)

/-- C6 counterexample: a pair with overwrite disabled and the target file
already present is still reported with the ignore reason — not
`"file exists and overwrite=false"` — when an ignore pattern also matches,
because the ignore check runs first. -/
theorem syncFile_skip_exists_cex :
    (⟨"/s/a.md", "/s", "a.md", "*", false, false⟩ : FileInfo).Overwrite = false ∧
      FS.fileExists ⟨[("/t/a.md", "old")], []⟩
        (joinPath (⟨"/t", false, ["a.md"]⟩ : TargetDir).Path "a.md") = true ∧
      (syncFile false "/" ⟨"/s/a.md", "/s", "a.md", "*", false, false⟩
        ⟨"/t", false, ["a.md"]⟩ ⟨[("/t/a.md", "old")], []⟩).1.SkipReason ≠
          "file exists and overwrite=false" := by
  refine ⟨rfl, by decide, by decide⟩

/-- C6 (amended): when no ignore pattern matches, overwrite is disabled for
the file, and a file already exists at the computed target path, the
decision is skip with reason exactly `"file exists and overwrite=false"`,
and the filesystem — in particular the existing target file's content — is
left unchanged. -/
theorem syncFile_skip_exists (dryRun : Bool) (cwd : String) (file : FileInfo)
    (targetDir : TargetDir) (fs : FS)
    (hig : targetDir.IgnoreFiles.find? (fun p => matchGlob p file.RelativePath) = none)
    (hov : file.Overwrite = false)
    (hex : fs.fileExists (joinPath targetDir.Path file.RelativePath) = true) :
    syncFile dryRun cwd file targetDir fs =
      ({ SourceFile := file.SourcePath
         TargetFile := joinPath targetDir.Path file.RelativePath
         Success := false
         Error := none
         PathAdjustments := []
         Skipped := true
         SkipReason := "file exists and overwrite=false" }, fs) := by
  simp only [syncFile, hig]
  rw [if_pos (by rw [hov, hex]; simp)]

/-- C6 witness: a concrete non-ignored pair with overwrite disabled and an
existing target skips and leaves the filesystem unchanged. -/
theorem syncFile_skip_exists_witness :
    syncFile false "/" ⟨"/s/a.md", "/s", "a.md", "*", false, false⟩
        ⟨"/t", false, ["*.txt"]⟩ ⟨[("/t/a.md", "old")], []⟩ =
      ({ SourceFile := "/s/a.md"
         TargetFile := joinPath "/t" "a.md"
         Success := false
         Error := none
         PathAdjustments := []
         Skipped := true
         SkipReason := "file exists and overwrite=false" },
        ⟨[("/t/a.md", "old")], []⟩) :=
  syncFile_skip_exists false "/" ⟨"/s/a.md", "/s", "a.md", "*", false, false⟩
    ⟨"/t", false, ["*.txt"]⟩ ⟨[("/t/a.md", "old")], []⟩ (by decide) rfl (by decide)

theorem syncFile_dryRun_fs (cwd : String) (file : FileInfo) (targetDir : TargetDir)
    (fs : FS) : (syncFile true cwd file targetDir fs).2 = fs := by
  simp only [syncFile]
  rcases hig : targetDir.IgnoreFiles.find? (fun pat => matchGlob pat file.RelativePath)
    with _ | pat
  · simp only
    by_cases hskip : ¬ file.Overwrite ∧
        (fs.fileExists (joinPath targetDir.Path file.RelativePath)) = true
    · rw [if_pos hskip]
    · rw [if_neg hskip]
      simp only [reduceIte]
  · rfl

theorem syncTargets_dryRun_fs (cwd : String) (file : FileInfo) :
    ∀ (targets : List TargetDir) (fs : FS),
      (syncTargets true cwd file targets fs).2 = fs := by
  intro targets
  induction targets with
  | nil => intro fs; rfl
  | cons t ts ih =>
    intro fs
    simp only [syncTargets]
    rw [ih, syncFile_dryRun_fs]

theorem syncFile_dryRun_shape (cwd : String) (file : FileInfo) (targetDir : TargetDir)
    (fs : FS) :
    decisionShape (syncFile true cwd file targetDir fs).1 =
      decisionShape (syncFile false cwd file targetDir fs).1 := by
  simp only [syncFile]
  rcases hig : targetDir.IgnoreFiles.find? (fun pat => matchGlob pat file.RelativePath)
    with _ | pat
  · simp only
    by_cases hskip : ¬ file.Overwrite ∧
        (fs.fileExists (joinPath targetDir.Path file.RelativePath)) = true
    · rw [if_pos hskip, if_pos hskip]
    · rw [if_neg hskip, if_neg hskip]
      simp only [reduceIte]
      by_cases hadj : file.AdjustPaths = true
      · rw [if_pos hadj]
        rcases AdjustPaths (fs.mkdirAll (dirPath (joinPath targetDir.Path file.RelativePath)))
          file.SourcePath (joinPath targetDir.Path file.RelativePath) file.SourceDir
          targetDir.Path cwd with e | ⟨adjs, fs2⟩ <;> rfl
      · rw [if_neg hadj]
        rcases CopyFile (fs.mkdirAll (dirPath (joinPath targetDir.Path file.RelativePath)))
          file.SourcePath (joinPath targetDir.Path file.RelativePath) with e | fs2 <;> rfl
  · rfl

/-- C4 counterexample: with a configuration listing the same target twice
and overwrite disabled, the real run creates the target on the first pair
and skips the second, while the dry run reports both pairs as synced — the
dry-run report is not identical in shape to the real run's. -/
theorem syncAll_dryRun_cex :
    ((syncAll true "/" [⟨"/s/a.md", "/s", "a.md", "*", false, false⟩]
        [⟨"/t", false, []⟩, ⟨"/t", false, []⟩] ⟨[("/s/a.md", "hi")], []⟩).1.map
          decisionShape) ≠
      ((syncAll false "/" [⟨"/s/a.md", "/s", "a.md", "*", false, false⟩]
        [⟨"/t", false, []⟩, ⟨"/t", false, []⟩] ⟨[("/s/a.md", "hi")], []⟩).1.map
          decisionShape) := by
  decide

/-- C4 (amended): a dry run performs no filesystem mutation whatsoever (no
file created or altered, no directory made), and for each (file, target)
pair evaluated against the same filesystem state the dry-run decision has
the same shape — source file, target file, skipped flag and skip reason —
as the real-run decision.  Whole-run reports can still differ in shape when
an earlier real write changes a later pair's existence check (e.g. a
duplicated target with overwrite disabled). -/
theorem syncAll_dryRun_pure (cwd : String) (files : List FileInfo)
    (targets : List TargetDir) (fs : FS) :
    (syncAll true cwd files targets fs).2 = fs ∧
      ∀ (file : FileInfo) (target : TargetDir),
        decisionShape (syncFile true cwd file target fs).1 =
          decisionShape (syncFile false cwd file target fs).1 := by
  constructor
  · induction files with
    | nil => rfl
    | cons f rest ih =>
      simp only [syncAll]
      rw [syncTargets_dryRun_fs, ih]
  · intro file target
    exact syncFile_dryRun_shape cwd file target fs

/-! ### Claims C8, C9: line-oriented content processing -/

theorem splitNL_breakNL (l : Chars) :
    splitNL l = (breakNL l).1 :: ((breakNL l).2.elim [] splitNL) := by
  induction l with
  | nil => rfl
  | cons c cs ih =>
    by_cases hc : c = '\n'
    · simp [splitNL, breakNL, hc]
    · simp only [splitNL, if_neg hc]
      rw [ih]
      simp [breakNL, if_neg hc]

theorem splitNL_ne_nil (l : Chars) : splitNL l ≠ [] := by
  rw [splitNL_breakNL]; simp

/-- `scanGo` fails exactly when some raw line overruns the token buffer. -/
theorem scanGo_none_iff (l : Chars) :
    scanGo l = none ↔ ∃ seg ∈ splitNL l, maxScanTokenSize ≤ seg.length := by
  have H : ∀ n (l : Chars), l.length ≤ n →
      (scanGo l = none ↔ ∃ seg ∈ splitNL l, maxScanTokenSize ≤ seg.length) := by
    intro n
    induction n with
    | zero =>
      intro l hl
      have hnil : l = [] := List.length_eq_zero.mp (Nat.le_zero.mp hl)
      subst hnil
      rw [scanGo]
      simp [splitNL, breakNL, maxScanTokenSize]
    | succ n ih =>
      intro l hl
      rw [scanGo, splitNL_breakNL]
      rcases hbr : (breakNL l).2 with _ | rest
      · simp only [Option.elim]
        by_cases hseg : (breakNL l).1 = []
        · rw [if_pos hseg]
          simp [hseg, maxScanTokenSize]
        · rw [if_neg hseg]
          by_cases hlong : maxScanTokenSize ≤ (breakNL l).1.length
          · simp [hlong]
          · simp [hlong]
      · simp only [Option.elim]
        by_cases hlong : maxScanTokenSize ≤ (breakNL l).1.length
        · simp [hlong]
        · rw [if_neg hlong]
          have hrest := ih rest (by
            have := breakNL_rest_length l (breakNL l).1 rest (Prod.ext rfl hbr)
            omega)
          simp only [Option.map_eq_none']
          rw [hrest]
          constructor
          · intro ⟨seg, h1, h2⟩
            exact ⟨seg, List.mem_cons_of_mem _ h1, h2⟩
          · intro ⟨seg, h1, h2⟩
            rcases List.mem_cons.mp h1 with h | h
            · exact absurd (h ▸ h2) (by omega)
            · exact ⟨seg, h, h2⟩
  exact H l.length l (le_refl _)

/-- When every raw line fits, `scanGo` produces exactly the newline-split
tokens (dropping a trailing empty segment, stripping one `\r` per line). -/
theorem scanGo_some (l : Chars)
    (h : ∀ seg ∈ splitNL l, seg.length < maxScanTokenSize) :
    scanGo l = some (linesOf l) := by
  have H : ∀ n (l : Chars), l.length ≤ n →
      (∀ seg ∈ splitNL l, seg.length < maxScanTokenSize) →
      scanGo l = some (linesOf l) := by
    intro n
    induction n with
    | zero =>
      intro l hl _
      have hnil : l = [] := List.length_eq_zero.mp (Nat.le_zero.mp hl)
      subst hnil
      rw [scanGo]
      simp [linesOf, splitNL, breakNL, dropCR]
    | succ n ih =>
      intro l hl hfit
      have hsegfit : (breakNL l).1.length < maxScanTokenSize := by
        refine hfit (breakNL l).1 ?_
        rw [splitNL_breakNL]
        exact List.mem_cons_self _ _
      rw [scanGo]
      split
      · next rest hbr =>
        rw [if_neg (by omega)]
        have hrest : scanGo rest = some (linesOf rest) := by
          refine ih rest ?_ ?_
          · have := breakNL_rest_length l (breakNL l).1 rest (Prod.ext rfl hbr)
            omega
          · intro seg hsg
            refine hfit seg ?_
            rw [splitNL_breakNL, hbr]
            exact List.mem_cons_of_mem _ hsg
        rw [hrest]
        have hsp : splitNL l = (breakNL l).1 :: splitNL rest := by
          rw [splitNL_breakNL, hbr]; rfl
        simp only [Option.map_some']
        congr 1
        simp only [linesOf, hsp]
        rcases hspr : splitNL rest with _ | ⟨t, ts⟩
        · exact absurd hspr (splitNL_ne_nil rest)
        · rw [List.getLast?_cons_cons]
          by_cases hlast : (t :: ts).getLast? = some []
          · rw [if_pos hlast, if_pos hlast]
            simp [List.dropLast_cons_of_ne_nil]
          · rw [if_neg hlast, if_neg hlast]
            simp
      · next hbr =>
        by_cases hseg : (breakNL l).1 = []
        · rw [if_pos hseg]
          have hsp : splitNL l = [[]] := by
            rw [splitNL_breakNL, hbr, hseg]; rfl
          simp [linesOf, hsp]
        · rw [if_neg hseg, if_neg (by omega)]
          have hsp : splitNL l = [(breakNL l).1] := by
            rw [splitNL_breakNL, hbr]; rfl
          simp only [linesOf, hsp]
          rw [List.getLast?_singleton]
          rw [if_neg (by simpa using hseg)]
          rfl
  exact H l.length l (le_refl _) h

theorem breakNL_no_newline (l : Chars) (h : '\n' ∉ l) : breakNL l = (l, none) := by
  induction l with
  | nil => rfl
  | cons c cs ih =>
    have hc : ¬ c = '\n' := fun hx => h (by rw [hx]; exact List.mem_cons_self _ _)
    simp only [breakNL, if_neg hc, ih (fun hx => h (List.mem_cons_of_mem _ hx))]

/-- C9 counterexample: an input consisting of a single line of exactly 65536
bytes — so containing no line *longer than* 65536 bytes — still makes
`processContent` fail, refuting the claimed boundary. -/
theorem processContent_limit_cex :
    processContentL (List.replicate 65536 'a') "/s".data "/t".data "/".data = none ∧
      ∀ seg ∈ splitNL (List.replicate 65536 'a'), ¬ 65536 < seg.length := by
  have hnl : ('\n' : Char) ∉ List.replicate 65536 'a' := by
    intro h
    have := List.eq_of_mem_replicate h
    exact absurd this (by decide)
  have hsplit : splitNL (List.replicate 65536 'a') = [List.replicate 65536 'a'] := by
    rw [splitNL_breakNL, breakNL_no_newline _ hnl]
    rfl
  constructor
  · rw [processContentL]
    have hnone : scanGo (List.replicate 65536 'a') = none := by
      rw [scanGo_none_iff]
      refine ⟨List.replicate 65536 'a', by rw [hsplit]; exact List.mem_cons_self _ _, ?_⟩
      rw [List.length_replicate]
      exact Nat.le_of_eq rfl
    rw [hnone]
  · intro seg hseg
    rw [hsplit] at hseg
    have hseg' : seg = List.replicate 65536 'a' := List.mem_singleton.mp hseg
    rw [hseg', List.length_replicate]
    exact Nat.lt_irrefl 65536

/-- C9 (amended): `processContent` fails exactly when some raw line (the
text between newlines, carriage return included, final newline excluded)
has length at least 65536 = `bufio.MaxScanTokenSize`; equivalently the last
supported line length is 65535 bytes, and a line of exactly 65536 bytes
already fails. -/
theorem processContent_err_iff (content sourceDir targetDir cwd : Chars) :
    processContentL content sourceDir targetDir cwd = none ↔
      ∃ seg ∈ splitNL content, maxScanTokenSize ≤ seg.length := by
  constructor
  · intro h
    rw [← scanGo_none_iff]
    rcases hsc : scanGo content with _ | lines
    · rfl
    · rw [processContentL] at h
      simp only [hsc] at h
      exact Option.noConfusion h
  · intro h
    rw [processContentL, (scanGo_none_iff content).mpr h]

theorem processLines_snd (sourceDir targetDir cwd : Chars) :
    ∀ (lines : List Chars) (n : Nat),
      (processLines sourceDir targetDir cwd n lines).2 =
        ((lines.mapIdx
          (fun i l => (adjustLineL l (n + i) sourceDir targetDir cwd).1 ++ ['\n'])).join) := by
  intro lines
  induction lines with
  | nil => intro n; simp [processLines]
  | cons line rest ih =>
    intro n
    simp only [processLines]
    rw [ih (n + 1), List.mapIdx_cons]
    have hfun : (fun i (l : Chars) =>
        (adjustLineL l (n + (i + 1)) sourceDir targetDir cwd).1 ++ ['\n']) =
          (fun i (l : Chars) =>
            (adjustLineL l ((n + 1) + i) sourceDir targetDir cwd).1 ++ ['\n']) := by
      funext i l
      have harith : n + (i + 1) = (n + 1) + i := by omega
      rw [harith]
    rw [hfun]
    simp [List.join]

/-- C8: for any content whose lines fit the scanner buffer, the rewriter's
output is exactly the concatenation, over the newline-split lines (a
trailing line without a final newline counting as a separate line), of each
adjusted line followed by a single `'\n'`. -/
theorem processContent_linewise (content sourceDir targetDir cwd : Chars)
    (h : ∀ seg ∈ splitNL content, seg.length < maxScanTokenSize) :
    (processContentL content sourceDir targetDir cwd).map Prod.snd =
      some (((linesOf content).mapIdx
        (fun i l => (adjustLineL l (1 + i) sourceDir targetDir cwd).1 ++ ['\n'])).join) := by
  rw [processContentL, scanGo_some content h]
  simp only [Option.map_some']
  rw [processLines_snd]

/-- C8 witness: concrete content with a trailing unterminated line. -/
theorem processContent_linewise_witness :
    (processContentL "x\ny".data "/s".data "/t".data "/".data).map Prod.snd =
      some (((linesOf "x\ny".data).mapIdx
        (fun i l => (adjustLineL l (1 + i) "/s".data "/t".data "/".data).1 ++ ['\n'])).join) :=
  processContent_linewise "x\ny".data "/s".data "/t".data "/".data (by decide)

/-! ### Claims C3, C7: token scanning -/

set_option maxHeartbeats 1600000 in
/-- C3 counterexample: on a line holding both a markdown link and a `src=`
attribute, the markdown-link adjustment (`./a.md`) is recorded before the
`src=` adjustment (`./b.md`): href/src attribute matches are processed
*after* that line's markdown-link matches, not before, refuting the claimed
category order. -/
theorem adjustLine_order_cex :
    adjustLine "[l](./a.md) src=\"./b.md\"" 1 "/s" "/t" "/" =
      ("[l](../s/a.md) src=\"../s/b.md\"",
        [⟨"./a.md", "../s/a.md", 1⟩, ⟨"./b.md", "../s/b.md", 1⟩]) := rfl

theorem processMatch_append (sourceDir targetDir cwd : Chars) (n : Nat)
    (st : Chars × List AdjustmentResult) (m : RegexMatch) :
    ∃ tail, (processMatch sourceDir targetDir cwd n st m).2 = st.2 ++ tail := by
  simp only [processMatch]
  split
  next => exact ⟨[], by simp⟩
  next =>
    split
    next => exact ⟨[], by simp⟩
    next adj hadj =>
      split
      next => exact ⟨[], by simp⟩
      next => exact ⟨_, rfl⟩

theorem foldl_processMatch_append (sourceDir targetDir cwd : Chars) (n : Nat) :
    ∀ (ms : List RegexMatch) (st : Chars × List AdjustmentResult),
      ∃ tail, (ms.foldl (processMatch sourceDir targetDir cwd n) st).2 = st.2 ++ tail := by
  intro ms
  induction ms with
  | nil => intro st; exact ⟨[], by simp⟩
  | cons m ms ih =>
    intro st
    rw [List.foldl_cons]
    obtain ⟨t1, h1⟩ := processMatch_append sourceDir targetDir cwd n st m
    obtain ⟨t2, h2⟩ := ih (processMatch sourceDir targetDir cwd n st m)
    exact ⟨t1 ++ t2, by rw [h2, h1, List.append_assoc]⟩

/-- C3 (amended): the scanner applies its six detection categories to each
line in the fixed source order — import/require statements, quoted
key-value references, attribute-style `key=` references whose fixed key set
is `file`, `path`, `source`, `target`, `output`, `input` (href and src are
*not* in this set), markdown link targets, href/src attributes, and then
generic quoted strings ending in a known file extension — and each category
stage only appends to the recorded adjustments, so every href=/src=
attribute match on a line is processed, and recorded, *after* that line's
markdown-link matches. -/
theorem adjustLine_category_order (line : Chars) (n : Nat)
    (sourceDir targetDir cwd : Chars) :
    adjustLineL line n sourceDir targetDir cwd =
      applyPattern sourceDir targetDir cwd n
        (applyPattern sourceDir targetDir cwd n
          (applyPattern sourceDir targetDir cwd n
            (applyPattern sourceDir targetDir cwd n
              (applyPattern sourceDir targetDir cwd n
                (applyPattern sourceDir targetDir cwd n (line, []) .impReq)
                .kvRef)
              .attrRef)
            .mdLink)
          .hrefSrc)
        .quotedExt ∧
      ∀ (st : Chars × List AdjustmentResult) (cat : PatternCat),
        ∃ tail, (applyPattern sourceDir targetDir cwd n st cat).2 = st.2 ++ tail := by
  constructor
  · simp only [adjustLineL, patternOrder, List.foldl_cons, List.foldl_nil]
  · intro st cat
    rw [applyPattern]
    exact foldl_processMatch_append sourceDir targetDir cwd n _ st

theorem foldl_preserve {α β : Type _} (P : α → Prop) (f : α → β → α) :
    ∀ (ms : List β) (st : α), P st → (∀ st' m, P st' → P (f st' m)) →
      P (ms.foldl f st) := by
  intro ms
  induction ms with
  | nil => intro st h _; exact h
  | cons m ms ih =>
    intro st h hstep
    exact ih (f st m) (hstep st m h) hstep

theorem foldl_fixed {α β : Type _} (f : α → β → α) :
    ∀ (ms : List β) (st : α), (∀ m ∈ ms, f st m = st) → ms.foldl f st = st := by
  intro ms
  induction ms with
  | nil => intro st _; rfl
  | cons m ms ih =>
    intro st h
    rw [List.foldl_cons, h m (List.mem_cons_self _ _)]
    exact ih st (fun m' hm' => h m' (List.mem_cons_of_mem _ hm'))

theorem processMatch_skip (sourceDir targetDir cwd : Chars) (n : Nat)
    (st : Chars × List AdjustmentResult) (m : RegexMatch)
    (hm : ¬ (startsWithL ['.', '/'] (sliceL st.1 m.cs m.ce) = true ∨
        startsWithL ['.', '.', '/'] (sliceL st.1 m.cs m.ce) = true)) :
    processMatch sourceDir targetDir cwd n st m = st := by
  simp only [processMatch]
  rw [if_pos hm]

theorem processMatch_rel (sourceDir targetDir cwd : Chars) (n : Nat)
    (st : Chars × List AdjustmentResult) (m : RegexMatch)
    (hrel : ∀ a ∈ st.2, startsWithL ['.', '/'] a.OriginalPath.data = true ∨
        startsWithL ['.', '.', '/'] a.OriginalPath.data = true) :
    ∀ a ∈ (processMatch sourceDir targetDir cwd n st m).2,
      startsWithL ['.', '/'] a.OriginalPath.data = true ∨
        startsWithL ['.', '.', '/'] a.OriginalPath.data = true := by
  simp only [processMatch]
  split
  next hguard => exact hrel
  next hguard =>
    split
    next => exact hrel
    next adj hadj =>
      split
      next => exact hrel
      next hne =>
        intro a ha
        rcases List.mem_append.mp ha with h' | h'
        · exact hrel a h'
        · have ha' : a = ⟨String.mk (sliceL st.1 m.cs m.ce), String.mk adj, n⟩ :=
            List.mem_singleton.mp h'
          rw [ha']
          exact not_not.mp hguard

/-- C7: non-relative candidate tokens are never rewritten — every recorded
adjustment's original path begins with `./` or `../`, and a line on which no
pattern category captures a `./`- or `../`-prefixed token is returned
unchanged with no adjustments. -/
theorem adjustLine_nonrelative (line : Chars) (n : Nat)
    (sourceDir targetDir cwd : Chars) :
    (∀ a ∈ (adjustLineL line n sourceDir targetDir cwd).2,
        startsWithL ['.', '/'] a.OriginalPath.data = true ∨
          startsWithL ['.', '.', '/'] a.OriginalPath.data = true) ∧
      ((∀ cat ∈ patternOrder, ∀ m ∈ patternFind cat line,
          ¬ (startsWithL ['.', '/'] (sliceL line m.cs m.ce) = true ∨
            startsWithL ['.', '.', '/'] (sliceL line m.cs m.ce) = true)) →
        adjustLineL line n sourceDir targetDir cwd = (line, [])) := by
  constructor
  · rw [adjustLineL]
    refine foldl_preserve
      (fun st => ∀ a ∈ st.2, startsWithL ['.', '/'] a.OriginalPath.data = true ∨
        startsWithL ['.', '.', '/'] a.OriginalPath.data = true)
      (applyPattern sourceDir targetDir cwd n) patternOrder (line, []) (by simp) ?_
    intro st cat hst
    rw [applyPattern]
    exact foldl_preserve _ (processMatch sourceDir targetDir cwd n) _ st hst
      (fun st' m hst' => processMatch_rel sourceDir targetDir cwd n st' m hst')
  · intro hnone
    rw [adjustLineL]
    have H : ∀ (cats : List PatternCat),
        (∀ cat ∈ cats, ∀ m ∈ patternFind cat line,
          ¬ (startsWithL ['.', '/'] (sliceL line m.cs m.ce) = true ∨
            startsWithL ['.', '.', '/'] (sliceL line m.cs m.ce) = true)) →
        cats.foldl (applyPattern sourceDir targetDir cwd n) (line, []) = (line, []) := by
      intro cats
      induction cats with
      | nil => intro _; rfl
      | cons cat rest ih =>
        intro hc
        rw [List.foldl_cons]
        have hone : applyPattern sourceDir targetDir cwd n (line, []) cat = (line, []) := by
          rw [applyPattern]
          refine foldl_fixed (processMatch sourceDir targetDir cwd n) _ (line, []) ?_
          intro m hm
          exact processMatch_skip sourceDir targetDir cwd n (line, []) m
            (hc cat (List.mem_cons_self _ _) m (List.mem_reverse.mp hm))
        rw [hone]
        exact ih (fun c hcm => hc c (List.mem_cons_of_mem _ hcm))
    exact H patternOrder hnone

/-- C7 witness: a line whose only candidate (a quoted absolute path) is
non-relative is returned unchanged with no adjustments. -/
theorem adjustLine_nonrelative_witness :
    adjustLineL "see \"/abs/x.md\"".data 1 "/s".data "/t".data "/".data =
      ("see \"/abs/x.md\"".data, []) :=
  (adjustLine_nonrelative "see \"/abs/x.md\"".data 1 "/s".data "/t".data "/".data).2
    (by decide)
